import Mathlib

/-!
# 3dmath.h: vector kernels, matrix multiply and scaled Cholesky decomposition

A shallow embedding of `src/src/3dmath.h`.

* A `float` buffer is a function `Nat → F` from cell index to value; a store
  `p[k] = v` is `Function.update p k v`.  Cells outside the caller's buffer are
  simply cells the kernels never touch.
* Arithmetic on buffer values is exact: `F` is a commutative ring or a field
  (`ℤ`, `ℚ`, `ℝ`), so rounding is not modelled.  The matrix multiply kernel itself is
  embedded over any type with `0`, `+` and `*` and no laws; the algebraic facts about
  it are proved where `F` is a commutative ring.
* `recip` and `fsqrt` of the numeric backend are parameters of the Cholesky
  kernel; on the native path they are `1.0f / a` and `(float)sqrt(a)`.
* The iterative backend (`sqrt_inv`, `fsqrt`, `divide`, `recip` under
  `__TI_COMPILER_VERSION__`) works on IEEE-754 doubles, modelled by their
  64-bit patterns, with the hardware estimate instructions and the rounded
  double operations as parameters.
-/

namespace TRICAL

/-! ## Vector kernels -/

section Vector

variable {F : Type} [CommRing F]

/-- Embedding of `vector_add_f`: `while (dim--) result[dim] = v1[dim] + v2[dim];`.
The test `dim--` succeeds on `dim + 1` and the body runs with the decremented value. -/
def vector_add_f : Nat → (Nat → F) → (Nat → F) → (Nat → F) → (Nat → F)
  | 0, result, _, _ => result
  | dim + 1, result, v1, v2 =>
      vector_add_f dim (Function.update result dim (v1 dim + v2 dim)) v1 v2

/-- Embedding of `vector_add_inplace_f`: `while (dim--) result[dim] += v1[dim];`. -/
def vector_add_inplace_f : Nat → (Nat → F) → (Nat → F) → (Nat → F)
  | 0, result, _ => result
  | dim + 1, result, v1 =>
      vector_add_inplace_f dim (Function.update result dim (result dim + v1 dim)) v1

/-- Embedding of `vector_subtract_f`: `while (dim--) result[dim] = v1[dim] - v2[dim];`. -/
def vector_subtract_f : Nat → (Nat → F) → (Nat → F) → (Nat → F) → (Nat → F)
  | 0, result, _, _ => result
  | dim + 1, result, v1, v2 =>
      vector_subtract_f dim (Function.update result dim (v1 dim - v2 dim)) v1 v2

/-- Embedding of `vector_subtract_inplace_f`: `while (dim--) result[dim] -= v1[dim];`. -/
def vector_subtract_inplace_f : Nat → (Nat → F) → (Nat → F) → (Nat → F)
  | 0, result, _ => result
  | dim + 1, result, v1 =>
      vector_subtract_inplace_f dim (Function.update result dim (result dim - v1 dim)) v1

/-- Embedding of `vector_scale_f`: `while (dim--) result[dim] = v1[dim] * scale;`. -/
def vector_scale_f : Nat → (Nat → F) → (Nat → F) → F → (Nat → F)
  | 0, result, _, _ => result
  | dim + 1, result, v1, scale =>
      vector_scale_f dim (Function.update result dim (v1 dim * scale)) v1 scale

/-- Embedding of `vector_scale_inplace_f`: `while (dim--) result[dim] *= scale;`. -/
def vector_scale_inplace_f : Nat → (Nat → F) → F → (Nat → F)
  | 0, result, _ => result
  | dim + 1, result, scale =>
      vector_scale_inplace_f dim (Function.update result dim (result dim * scale)) scale

/-- Embedding of `vector3_cross_f` with `X = 0`, `Y = 1`, `Z = 2`: the six products
`r0 .. r5` are formed first, then the three cells are stored. -/
def vector3_cross_f (result v1 v2 : Nat → F) : Nat → F :=
  let r0 := v1 1 * v2 2
  let r1 := v1 2 * v2 1
  let r2 := v1 2 * v2 0
  let r3 := v1 0 * v2 2
  let r4 := v1 0 * v2 1
  let r5 := v1 1 * v2 0
  Function.update (Function.update (Function.update result 0 (r0 - r1)) 1 (r2 - r3)) 2 (r4 - r5)

end Vector

/-! ## Matrix multiply -/

section Multiply

/- The multiply kernel is embedded over a type with a zero, an addition and a
multiplication and no laws, so that the order of its operations is part of its value. -/
variable {F : Type} [Zero F] [Add F] [Mul F]

/-- Inner loop of `matrix_multiply_f`:
`for (k = 0; k < AR; k++) t += A[i * AR + k] * B[k * BR + j];`
The first argument is the number of iterations left, `k` and `t` are the loop state. -/
def matrix_multiply_dot (A B : Nat → F) (AR BR i j : Nat) : Nat → Nat → F → F
  | 0, _, t => t
  | n + 1, k, t =>
      matrix_multiply_dot A B AR BR i j n (k + 1) (t + A (i * AR + k) * B (k * BR + j))

/-- Middle loop of `matrix_multiply_f`:
`for (j = 0; j < BR; j++) { float t = 0.0; ...; C[i * BR + j] = t * mul; }`. -/
def matrix_multiply_row (A B : Nat → F) (AR BR : Nat) (mul : F) (i : Nat) :
    Nat → Nat → (Nat → F) → (Nat → F)
  | 0, _, C => C
  | n + 1, j, C =>
      matrix_multiply_row A B AR BR mul i n (j + 1)
        (Function.update C (i * BR + j) (matrix_multiply_dot A B AR BR i j AR 0 0 * mul))

/-- Outer loop of `matrix_multiply_f`: `for (i = 0; i < AC; i++) { ... }`. -/
def matrix_multiply_rows (A B : Nat → F) (AR BR : Nat) (mul : F) :
    Nat → Nat → (Nat → F) → (Nat → F)
  | 0, _, C => C
  | n + 1, i, C =>
      matrix_multiply_rows A B AR BR mul n (i + 1) (matrix_multiply_row A B AR BR mul i BR 0 C)

/-- Embedding of `matrix_multiply_f(C, B, A, AR, AC, BR, BC, mul)`.  `BC` occurs in the
source only in `assert(... && AR == BC)`; the three counted loops run `AC`, `BR` and
`AR` times. -/
def matrix_multiply_f (C B A : Nat → F) (AR AC BR BC : Nat) (mul : F) : Nat → F :=
  let _ := BC
  matrix_multiply_rows A B AR BR mul AC 0 C

end Multiply

/-- Symbolic `float` expressions: opaque values, `0.0`, sums and products, with no law
relating them.  Running a kernel on them shows which operations it performs, on which
operands and in which order. -/
inductive FloatExpr where
  | zero : FloatExpr
  | val : Nat → FloatExpr
  | add : FloatExpr → FloatExpr → FloatExpr
  | mul : FloatExpr → FloatExpr → FloatExpr
  deriving DecidableEq

instance : Zero FloatExpr := ⟨FloatExpr.zero⟩

instance : Add FloatExpr := ⟨FloatExpr.add⟩

instance : Mul FloatExpr := ⟨FloatExpr.mul⟩

/-! ## Scaled Cholesky decomposition -/

section Cholesky

variable {F : Type} [CommRing F]

/-- Innermost loop of `matrix_cholesky_decomp_scale_f`:
`for (kn = 0; kn < j*dim; kn += dim) s += L[i + kn] * L[j + kn];`
The first argument bounds the number of iterations; `kn` and `s` are the loop state and
the loop guard is tested before every iteration.  The caller passes the bound `j`,
which the loop never exhausts before its guard fails (`cholesky_sum_fuel`). -/
def cholesky_sum (L : Nat → F) (dim i j : Nat) : Nat → Nat → F → F
  | 0, _, s => s
  | n + 1, kn, s =>
      if kn < j * dim then
        cholesky_sum L dim i j n (kn + dim) (s + L (i + kn) * L (j + kn))
      else s

/-- Middle loop of `matrix_cholesky_decomp_scale_f`, for row `i` with `iN = i*dim`
(the source variable `in`):
`for (j = 1, jn = dim; j <= i; j++, jn += dim) { float s = 0; ...;
   L[i + jn] = (i == j) ? fsqrt(A[i + in]*mul - s) : recip(L[j + jn]) * (A[i + jn]*mul - s); }`
The first argument is the number of iterations left (`i` at entry). -/
def cholesky_row (fsqrt recip : F → F) (dim : Nat) (A : Nat → F) (mul : F) (i iN : Nat) :
    Nat → Nat → Nat → (Nat → F) → (Nat → F)
  | 0, _, _, L => L
  | n + 1, j, jn, L =>
      let s := cholesky_sum L dim i j j 0 0
      cholesky_row fsqrt recip dim A mul i iN n (j + 1) (jn + dim)
        (Function.update L (i + jn)
          (if i = j then fsqrt (A (i + iN) * mul - s)
           else recip (L (j + jn)) * (A (i + jn) * mul - s)))

/-- Outer loop of `matrix_cholesky_decomp_scale_f`:
`for (i = 0, in = 0; i < dim; i++, in += dim) {
   L[i + 0] = (i == 0) ? fsqrt(A[i + in]*mul) : recip(L[0]) * (A[i]*mul);
   for (j = 1, ...) ... }`
The first argument is the number of iterations left (`dim` at entry). -/
def cholesky_rows (fsqrt recip : F → F) (dim : Nat) (A : Nat → F) (mul : F) :
    Nat → Nat → Nat → (Nat → F) → (Nat → F)
  | 0, _, _, L => L
  | n + 1, i, iN, L =>
      let L1 := Function.update L (i + 0)
        (if i = 0 then fsqrt (A (i + iN) * mul) else recip (L 0) * (A i * mul))
      cholesky_rows fsqrt recip dim A mul n (i + 1) (iN + dim)
        (cholesky_row fsqrt recip dim A mul i iN i 1 dim L1)

/-- Embedding of `matrix_cholesky_decomp_scale_f(dim, L, A, mul)`, with the backend's
`fsqrt` and `recip` as parameters.  The result is the buffer `L` after the call.
Index arithmetic is in `Nat`: the source computes it in `unsigned int`, which does not
wrap for a buffer of `dim*dim < 2^32` cells. -/
def matrix_cholesky_decomp_scale_f (fsqrt recip : F → F) (dim : Nat) (L A : Nat → F)
    (mul : F) : Nat → F :=
  cholesky_rows fsqrt recip dim A mul dim 0 0 L

/-- Right-hand side of the Cholesky-Banachiewicz recurrence of the specification for
entry `(i, j)`, `j ≤ i`, evaluated on a buffer `L` in which entry `(r, c)` is the cell
`L[r + c*dim]`:
`fsqrt(A[i][i]*mul - Σ_{k<i} L[i][k]^2)` on the diagonal and
`recip(L[j][j]) * (A[i][j]*mul - Σ_{k<j} L[i][k]*L[j][k])` below it. -/
def cholesky_recurrence (fsqrt recip : F → F) (dim : Nat) (A : Nat → F) (mul : F)
    (L : Nat → F) (i j : Nat) : F :=
  if i = j then
    fsqrt (A (i + i * dim) * mul - ∑ k in Finset.range j, L (i + k * dim) * L (j + k * dim))
  else
    recip (L (j + j * dim))
      * (A (i + j * dim) * mul - ∑ k in Finset.range j, L (i + k * dim) * L (j + k * dim))

/-- The factor held by a buffer `L` after the routine, as a function of row and column:
entry `(i, j)` with `j ≤ i` is the cell `L[i + j*dim]` the routine writes for it, and the
entries above the diagonal are `0`. -/
def cholesky_factor (dim : Nat) (L : Nat → F) (i j : Nat) : F :=
  if j ≤ i then L (i + j * dim) else 0

/-- A buffer read as a row-major `dim x dim` matrix (the specification's data model):
entry `(r, c)` is the cell `r*dim + c`. -/
def matrix_of_buffer (dim : Nat) (A : Nat → F) : Matrix (Fin dim) (Fin dim) F :=
  Matrix.of fun r c => A (r * dim + c)

/-- The buffer `[4, 2, 2, 3]`, i.e. the matrix `[[4, 2], [2, 3]]` of the specification's
example (cells past the fourth read `2`). -/
def example_A : Nat → F :=
  fun k => if k = 0 then 4 else if k = 3 then 3 else 2

end Cholesky

/-! ## Iterative numeric backend (`__TI_COMPILER_VERSION__`) -/

section Backend

/-- The `double` operations and TI intrinsics the iterative backend is written with:
the rounded product and difference, the comparisons, the literals that occur in the
source, and `_rsqrdp`, `_rcpdp`, `_lltod`, `_hi`, `_lo`, `_itod`. -/
structure DoubleOps (D : Type) where
  mul : D → D → D
  sub : D → D → D
  lt : D → D → Bool
  le : D → D → Bool
  eq : D → D → Bool
  lit_0 : D
  lit_0_5 : D
  lit_1_5 : D
  lit_2 : D
  lit_max : D
  _rsqrdp : D → D
  _rcpdp : D → D
  _lltod : Nat → D
  _hi : D → Nat
  _lo : D → Nat
  _itod : Nat → Nat → D

/-- The intrinsic `_clr(x, csta, cstb)`: clear bits `csta .. cstb` of the 32-bit word `x`. -/
def _clr (x csta cstb : Nat) : Nat :=
  x - (x / 2 ^ csta % 2 ^ (cstb + 1 - csta)) * 2 ^ csta

variable {D : Type}

/-- Embedding of the iterative-path `sqrt_inv`. -/
def sqrt_inv (o : DoubleOps D) (a : D) : D :=
  if o.lt a o.lit_0 then
    o._lltod 0x7FEFFFFFFFFFFFFF
  else
    let half_a := o.mul a o.lit_0_5
    let x := o._rsqrdp a
    let x := o.mul x (o.sub o.lit_1_5 (o.mul (o.mul half_a x) x))
    let x := o.mul x (o.sub o.lit_1_5 (o.mul (o.mul half_a x) x))
    let x := o.mul x (o.sub o.lit_1_5 (o.mul (o.mul half_a x) x))
    x

/-- Embedding of the iterative-path `fsqrt`. -/
def fsqrt (o : DoubleOps D) (a : D) : D :=
  let upper := _clr (o._hi a) 31 31
  let y := o._itod upper (o._lo a)
  let X0 := o._rsqrdp y
  let X1 := o.mul X0 (o.sub o.lit_1_5 (o.mul (o.mul (o.mul y X0) X0) o.lit_0_5))
  let X2 := o.mul X1 (o.sub o.lit_1_5 (o.mul (o.mul (o.mul y X1) X1) o.lit_0_5))
  let X4 := o.mul (o.mul y X2) (o.sub o.lit_1_5 (o.mul (o.mul (o.mul y X2) X2) o.lit_0_5))
  let X4 := if o.le a o.lit_0 then o.lit_0 else X4
  let X4 := if o.lt o.lit_max a then o.lit_max else X4
  X4

/-- Embedding of the iterative-path `divide`. -/
def divide (o : DoubleOps D) (a b : D) : D :=
  if o.eq a o.lit_0 then
    o.lit_0
  else
    let x := o._rcpdp b
    let x := o.mul x (o.sub o.lit_2 (o.mul b x))
    let x := o.mul x (o.sub o.lit_2 (o.mul b x))
    let x := o.mul x (o.sub o.lit_2 (o.mul b x))
    let x := o.mul x a
    x

/-- Embedding of the iterative-path `recip`. -/
def recip (o : DoubleOps D) (b : D) : D :=
  let x := o._rcpdp b
  let x := o.mul x (o.sub o.lit_2 (o.mul b x))
  let x := o.mul x (o.sub o.lit_2 (o.mul b x))
  let x := o.mul x (o.sub o.lit_2 (o.mul b x))
  x

/-! ### IEEE-754 binary64 bit patterns -/

/-- Sign bit of a 64-bit pattern. -/
def signBit (b : Nat) : Nat := b / 2 ^ 63 % 2

/-- Biased exponent field (11 bits) of a 64-bit pattern. -/
def expField (b : Nat) : Nat := b / 2 ^ 52 % 2 ^ 11

/-- Fraction field (52 bits) of a 64-bit pattern. -/
def fracField (b : Nat) : Nat := b % 2 ^ 52

/-- A pattern is a NaN when its exponent field is all ones and its fraction is not zero. -/
def isNaN (b : Nat) : Bool := expField b == 0x7FF && fracField b != 0

/-- Order key of a non-NaN pattern: sign-magnitude read as an integer, so that the
order of the keys is the order of the doubles (`-0.0` and `+0.0` share the key `0`). -/
def orderKey (b : Nat) : Int :=
  if signBit b = 0 then ((b % 2 ^ 63 : Nat) : Int) else -((b % 2 ^ 63 : Nat) : Int)

/-- The C comparison `a < b` on doubles given by their bit patterns. -/
def dlt (a b : Nat) : Bool := !isNaN a && !isNaN b && decide (orderKey a < orderKey b)

/-- The C comparison `a <= b` on doubles given by their bit patterns. -/
def dle (a b : Nat) : Bool := !isNaN a && !isNaN b && decide (orderKey a ≤ orderKey b)

/-- The C comparison `a == b` on doubles given by their bit patterns. -/
def deq (a b : Nat) : Bool := !isNaN a && !isNaN b && decide (orderKey a = orderKey b)

/-- Bit pattern of the largest finite double, `1.7976931348623157E+308`. -/
def DBL_MAX_bits : Nat := 0x7FEFFFFFFFFFFFFF

/-- Bit pattern of positive infinity. -/
def POS_INF_bits : Nat := 0x7FF0000000000000

/-- Bit pattern of `-1.0`. -/
def NEG_ONE_bits : Nat := 0xBFF0000000000000

/-- The iterative backend on bit patterns: comparisons, literals and the bit-level
intrinsics are those of IEEE-754 binary64; the rounded product and difference and the
two estimate instructions are parameters. -/
def ieee (fmul fsub : Nat → Nat → Nat) (rsqrdp rcpdp : Nat → Nat) : DoubleOps Nat where
  mul := fmul
  sub := fsub
  lt := dlt
  le := dle
  eq := deq
  lit_0 := 0
  lit_0_5 := 0x3FE0000000000000
  lit_1_5 := 0x3FF8000000000000
  lit_2 := 0x4000000000000000
  lit_max := DBL_MAX_bits
  _rsqrdp := rsqrdp
  _rcpdp := rcpdp
  _lltod := fun n => n % 2 ^ 64
  _hi := fun b => b / 2 ^ 32 % 2 ^ 32
  _lo := fun b => b % 2 ^ 32
  _itod := fun hi lo => (hi % 2 ^ 32) * 2 ^ 32 + lo % 2 ^ 32

end Backend

/-! ## Flat-memory view of `vector_add_f` -/

section VectorMemory

variable {F : Type} [CommRing F]

/-- Embedding of `vector_add_f` on one flat memory: `result`, `v1` and `v2` are the
addresses the three pointers hold, `mem` is the memory and the second component logs,
in order, the index `dim` on which each iteration of
`while (dim--) result[dim] = v1[dim] + v2[dim];` runs its body. -/
def vector_add_f_mem : Nat → Nat → Nat → Nat → (Nat → F) × List Nat → (Nat → F) × List Nat
  | 0, _, _, _, st => st
  | dim + 1, result, v1, v2, (mem, visited) =>
      vector_add_f_mem dim result v1 v2
        (Function.update mem (result + dim) (mem (v1 + dim) + mem (v2 + dim)),
          visited ++ [dim])

end VectorMemory

/-! ## The iterative backend in exact arithmetic -/

section ExactBackend

/-- The iterative backend with exact arithmetic in place of the rounded `double`
operations: products, differences, comparisons and literals are those of an ordered
field `K`; the estimate instructions `_rsqrdp`, `_rcpdp` and the bit-level intrinsics
`_lltod`, `_hi`, `_lo`, `_itod` remain parameters. -/
def exactOps {K : Type} [LinearOrderedField K] (rsqrdp rcpdp : K → K) (lltod : Nat → K)
    (hi lo : K → Nat) (itod : Nat → Nat → K) : DoubleOps K where
  mul := fun x y => x * y
  sub := fun x y => x - y
  lt := fun x y => decide (x < y)
  le := fun x y => decide (x ≤ y)
  eq := fun x y => decide (x = y)
  lit_0 := 0
  lit_0_5 := 1 / 2
  lit_1_5 := 3 / 2
  lit_2 := 2
  lit_max := 2 ^ 1024 - 2 ^ 971
  _rsqrdp := rsqrdp
  _rcpdp := rcpdp
  _lltod := lltod
  _hi := hi
  _lo := lo
  _itod := itod

end ExactBackend

/-! ## Cholesky with a trace of its stores and loads -/

section CholeskyTrace

variable {F : Type} [CommRing F]

/-- The innermost loop of `matrix_cholesky_decomp_scale_f` with a check on its loads:
`W` lists the cells of `L` stored to so far in the call, and the flag stays `true` as
long as every cell of `L` that is loaded (`L[i + kn]`, `L[j + kn]`) is in `W`. -/
def cholesky_sum_traced (L : Nat → F) (W : List Nat) (dim i j : Nat) :
    Nat → Nat → F × Bool → F × Bool
  | 0, _, st => st
  | n + 1, kn, (s, ok) =>
      if kn < j * dim then
        cholesky_sum_traced L W dim i j n (kn + dim)
          (s + L (i + kn) * L (j + kn), ok && decide (i + kn ∈ W) && decide (j + kn ∈ W))
      else (s, ok)

/-- The middle loop of `matrix_cholesky_decomp_scale_f` with its trace: the state is the
buffer `L`, the list `W` of cells stored to so far (in order) and the flag of the loads.
Each iteration loads through the innermost loop, loads `L[j + jn]` when `i != j`, and
stores to `L[i + jn]`. -/
def cholesky_row_traced (fsqrt recip : F → F) (dim : Nat) (A : Nat → F) (mul : F)
    (i iN : Nat) :
    Nat → Nat → Nat → (Nat → F) × List Nat × Bool → (Nat → F) × List Nat × Bool
  | 0, _, _, st => st
  | n + 1, j, jn, (L, W, ok) =>
      let r := cholesky_sum_traced L W dim i j j 0 (0, ok)
      cholesky_row_traced fsqrt recip dim A mul i iN n (j + 1) (jn + dim)
        (Function.update L (i + jn)
            (if i = j then fsqrt (A (i + iN) * mul - r.1)
             else recip (L (j + jn)) * (A (i + jn) * mul - r.1)),
          W ++ [i + jn],
          if i = j then r.2 else r.2 && decide (j + jn ∈ W))

/-- The outer loop of `matrix_cholesky_decomp_scale_f` with its trace: each iteration
loads `L[0]` when `i != 0`, stores to `L[i + 0]` and runs the middle loop. -/
def cholesky_rows_traced (fsqrt recip : F → F) (dim : Nat) (A : Nat → F) (mul : F) :
    Nat → Nat → Nat → (Nat → F) × List Nat × Bool → (Nat → F) × List Nat × Bool
  | 0, _, _, st => st
  | n + 1, i, iN, (L, W, ok) =>
      let L1 := Function.update L (i + 0)
        (if i = 0 then fsqrt (A (i + iN) * mul) else recip (L 0) * (A i * mul))
      cholesky_rows_traced fsqrt recip dim A mul n (i + 1) (iN + dim)
        (cholesky_row_traced fsqrt recip dim A mul i iN i 1 dim
          (L1, W ++ [i + 0], if i = 0 then ok else ok && decide (0 ∈ W)))

/-- `matrix_cholesky_decomp_scale_f` with its trace: the buffer after the call, the
cells of `L` stored to, in order, and whether every load from `L` was from a cell
already stored to in the same call. -/
def matrix_cholesky_decomp_scale_f_traced (fsqrt recip : F → F) (dim : Nat) (L A : Nat → F)
    (mul : F) : (Nat → F) × List Nat × Bool :=
  cholesky_rows_traced fsqrt recip dim A mul dim 0 0 (L, [], true)

/-- The cells stored to before iteration `j` of row `i`: the cells `r + c*dim`, `c ≤ r`,
of the rows `r < i`, and those of row `i` with `c < j`. -/
def cholesky_written (dim i j idx : Nat) : Prop :=
  ∃ r c, c ≤ r ∧ r < dim ∧ idx = r + c * dim ∧ (r < i ∨ (r = i ∧ c < j))

end CholeskyTrace

/-! ## Vector kernel facts -/

section VectorLemmas

variable {F : Type} [CommRing F]

/-- Cells of the result of `vector_add_f`. -/
theorem vector_add_f_apply (dim : Nat) (result v1 v2 : Nat → F) (i : Nat) :
    vector_add_f dim result v1 v2 i = if i < dim then v1 i + v2 i else result i := by
  induction dim generalizing result with
  | zero => simp [vector_add_f]
  | succ n ih =>
    rw [vector_add_f, ih]
    by_cases h : i < n
    · simp [h, Nat.lt_succ_of_lt h]
    · by_cases h2 : i = n
      · subst h2; simp
      · have h3 : ¬ i < n + 1 := by omega
        simp [h, h3, Function.update_noteq h2]

/-- Cells of the result of `vector_subtract_f`. -/
theorem vector_subtract_f_apply (dim : Nat) (result v1 v2 : Nat → F) (i : Nat) :
    vector_subtract_f dim result v1 v2 i = if i < dim then v1 i - v2 i else result i := by
  induction dim generalizing result with
  | zero => simp [vector_subtract_f]
  | succ n ih =>
    rw [vector_subtract_f, ih]
    by_cases h : i < n
    · simp [h, Nat.lt_succ_of_lt h]
    · by_cases h2 : i = n
      · subst h2; simp
      · have h3 : ¬ i < n + 1 := by omega
        simp [h, h3, Function.update_noteq h2]

/-- Cells of the result of `vector_scale_inplace_f`. -/
theorem vector_scale_inplace_f_apply (dim : Nat) (result : Nat → F) (scale : F) (i : Nat) :
    vector_scale_inplace_f dim result scale i
      = if i < dim then result i * scale else result i := by
  induction dim generalizing result with
  | zero => simp [vector_scale_inplace_f]
  | succ n ih =>
    rw [vector_scale_inplace_f, ih]
    by_cases h : i < n
    · have h2 : i ≠ n := by omega
      simp [h, Nat.lt_succ_of_lt h, Function.update_noteq h2]
    · by_cases h2 : i = n
      · subst h2; simp
      · have h3 : ¬ i < n + 1 := by omega
        simp [h, h3, Function.update_noteq h2]

end VectorLemmas

/-- C7: add/subtract round trip. For every `d ≥ 1` and vectors `v1`, `v2`, running
`vector_add_f(d, r, v1, v2)` and then `vector_subtract_f(d, r2, r, v2)` leaves
`r2[i] = v1[i]` for every `i < d`, whatever `r` and `r2` held before. -/
theorem vector_add_subtract_roundtrip {F : Type} [CommRing F] (d : Nat) (hd : 1 ≤ d)
    (r r2 v1 v2 : Nat → F) (i : Nat) (hi : i < d) :
    vector_subtract_f d r2 (vector_add_f d r v1 v2) v2 i = v1 i := by
  have _ := hd
  rw [vector_subtract_f_apply, vector_add_f_apply]
  simp [hi]

/-- Witness for C7 at `d = 2`, `v1 = [5, 7]`, `v2 = [1, -3]`, cell `1`. -/
theorem vector_add_subtract_roundtrip_witness :
    (1 ≤ 2 ∧ 1 < 2) ∧
    vector_subtract_f 2 (fun _ => (0 : ℤ))
      (vector_add_f 2 (fun _ => 0) (fun k => if k = 0 then 5 else 7)
        (fun k => if k = 0 then 1 else -3))
      (fun k => if k = 0 then 1 else -3) 1
      = (fun k => if k = 0 then (5 : ℤ) else 7) 1 :=
  ⟨by decide, vector_add_subtract_roundtrip 2 (by decide) _ _ _ _ 1 (by decide)⟩

/-- C8: `vector3_cross_f` is anti-commutative. With `r = vector3_cross_f(v1, v2)` and
`r2 = vector3_cross_f(v2, v1)`, `r2[i] = -r[i]` for `i = 0, 1, 2`, whatever the two
result buffers held before. -/
theorem vector3_cross_anticomm {F : Type} [CommRing F] (res res2 v1 v2 : Nat → F) :
    vector3_cross_f res2 v2 v1 0 = - vector3_cross_f res v1 v2 0 ∧
    vector3_cross_f res2 v2 v1 1 = - vector3_cross_f res v1 v2 1 ∧
    vector3_cross_f res2 v2 v1 2 = - vector3_cross_f res v1 v2 2 := by
  refine ⟨?_, ?_, ?_⟩ <;> simp [vector3_cross_f, Function.update] <;> ring

/-- C10: scale inversion. For every `d ≥ 1`, vector `v` and scalar `s ≠ 0`,
`vector_scale_inplace_f(d, v, s)` followed by `vector_scale_inplace_f(d, v, 1/s)`
restores every `v[i]`, `i < d`. -/
theorem vector_scale_inplace_inverse {F : Type} [Field F] (d : Nat) (hd : 1 ≤ d)
    (v : Nat → F) (s : F) (hs : s ≠ 0) (i : Nat) (hi : i < d) :
    vector_scale_inplace_f d (vector_scale_inplace_f d v s) (1 / s) i = v i := by
  have _ := hd
  rw [vector_scale_inplace_f_apply, vector_scale_inplace_f_apply]
  simp only [hi, if_true]
  field_simp

/-- Witness for C10 at `d = 2`, `v = [3, 5]`, `s = 4`, cell `0`. -/
theorem vector_scale_inplace_inverse_witness :
    (1 ≤ 2 ∧ (4 : ℚ) ≠ 0 ∧ 0 < 2) ∧
    vector_scale_inplace_f 2
      (vector_scale_inplace_f 2 (fun k => if k = 0 then (3 : ℚ) else 5) 4) (1 / 4) 0
      = (fun k => if k = 0 then (3 : ℚ) else 5) 0 :=
  ⟨⟨by decide, by norm_num, by decide⟩,
    vector_scale_inplace_inverse 2 (by decide) _ 4 (by norm_num) 0 (by decide)⟩

/-! ## Iterative backend: the edge-case branches -/

/-- The key of `+0.0`. -/
theorem orderKey_zero : orderKey 0 = 0 := by decide

/-- The key of the largest finite double is positive. -/
theorem orderKey_DBL_MAX_pos : 0 < orderKey DBL_MAX_bits := by decide

/-- A double that compares `<= 0.0` does not compare `> 1.7976931348623157E+308`. -/
theorem dle_zero_not_gt_max (a : Nat) (h : dle a 0 = true) : dlt DBL_MAX_bits a = false := by
  simp only [dle, Bool.and_eq_true, decide_eq_true_eq, orderKey_zero] at h
  have hk := orderKey_DBL_MAX_pos
  cases hlt : dlt DBL_MAX_bits a with
  | false => rfl
  | true =>
    simp only [dlt, Bool.and_eq_true, decide_eq_true_eq] at hlt
    omega

/-- C5 fails as stated: at `a = -1.0` (which compares `< 0`) the iterative `sqrt_inv`
returns the pattern `0x7FEFFFFFFFFFFFFF` whatever the hardware operations are, and that
pattern is not the pattern `0x7FF0000000000000` of positive infinity: its exponent
field is `0x7FE`, not `0x7FF`. -/
theorem sqrt_inv_neg_one_not_infinity :
    dlt NEG_ONE_bits 0 = true ∧
    (∀ (fmul fsub : Nat → Nat → Nat) (rsqrdp rcpdp : Nat → Nat),
      sqrt_inv (ieee fmul fsub rsqrdp rcpdp) NEG_ONE_bits = 0x7FEFFFFFFFFFFFFF) ∧
    (0x7FEFFFFFFFFFFFFF : Nat) ≠ POS_INF_bits ∧
    expField 0x7FEFFFFFFFFFFFFF ≠ 0x7FF := by
  refine ⟨by decide, ?_, by decide, by decide⟩
  intro fmul fsub rsqrdp rcpdp
  have h : dlt NEG_ONE_bits 0 = true := by decide
  simp [sqrt_inv, ieee, h]

/-- C5 as amended: for every `a < 0` the iterative `sqrt_inv` returns the double whose
64-bit pattern is `0x7FEFFFFFFFFFFFFF`: sign `0`, exponent field `0x7FE`, fraction all
ones.  That is the largest finite double `1.7976931348623157E+308`; it is not a NaN and
not an infinity. -/
theorem sqrt_inv_negative (fmul fsub : Nat → Nat → Nat) (rsqrdp rcpdp : Nat → Nat)
    (a : Nat) (ha : dlt a 0 = true) :
    sqrt_inv (ieee fmul fsub rsqrdp rcpdp) a = DBL_MAX_bits ∧
    signBit (sqrt_inv (ieee fmul fsub rsqrdp rcpdp) a) = 0 ∧
    expField (sqrt_inv (ieee fmul fsub rsqrdp rcpdp) a) = 0x7FE ∧
    fracField (sqrt_inv (ieee fmul fsub rsqrdp rcpdp) a) = 2 ^ 52 - 1 ∧
    isNaN (sqrt_inv (ieee fmul fsub rsqrdp rcpdp) a) = false := by
  have h : sqrt_inv (ieee fmul fsub rsqrdp rcpdp) a = DBL_MAX_bits := by
    simp [sqrt_inv, ieee, ha, DBL_MAX_bits]
  rw [h]
  exact ⟨rfl, by decide, by decide, by decide, by decide⟩

/-- Witness for the amended C5 at `a = -1.0`, with hardware operations that return `0`. -/
theorem sqrt_inv_negative_witness :
    dlt NEG_ONE_bits 0 = true ∧
    sqrt_inv (ieee (fun _ _ => 0) (fun _ _ => 0) (fun _ => 0) (fun _ => 0)) NEG_ONE_bits
      = DBL_MAX_bits :=
  ⟨by decide,
    (sqrt_inv_negative (fun _ _ => 0) (fun _ _ => 0) (fun _ => 0) (fun _ => 0)
      NEG_ONE_bits (by decide)).1⟩

/-- C6: on the iterative path `fsqrt(a)` is exactly `+0.0` (pattern `0`) for every
`a <= 0.0`, and is `1.7976931348623157E+308` for every `a` greater than that value,
whatever the `_rsqrdp` estimate and the rounded products and differences of the
refinement steps are. -/
theorem fsqrt_clamps (fmul fsub : Nat → Nat → Nat) (rsqrdp rcpdp : Nat → Nat) (a : Nat) :
    (dle a 0 = true → fsqrt (ieee fmul fsub rsqrdp rcpdp) a = 0) ∧
    (dlt DBL_MAX_bits a = true → fsqrt (ieee fmul fsub rsqrdp rcpdp) a = DBL_MAX_bits) := by
  constructor
  · intro h
    have h2 := dle_zero_not_gt_max a h
    simp [fsqrt, ieee, h, h2]
  · intro h
    simp [fsqrt, ieee, h]

/-- Witness for C6: `fsqrt(-1.0) = 0` and `fsqrt(+inf) = 1.7976931348623157E+308`, with
hardware operations that return the pattern of `1.0`. -/
theorem fsqrt_clamps_witness :
    (dle NEG_ONE_bits 0 = true ∧ dlt DBL_MAX_bits POS_INF_bits = true) ∧
    fsqrt (ieee (fun _ _ => 0x3FF0000000000000) (fun _ _ => 0x3FF0000000000000)
      (fun _ => 0x3FF0000000000000) (fun _ => 0x3FF0000000000000)) NEG_ONE_bits = 0 ∧
    fsqrt (ieee (fun _ _ => 0x3FF0000000000000) (fun _ _ => 0x3FF0000000000000)
      (fun _ => 0x3FF0000000000000) (fun _ => 0x3FF0000000000000)) POS_INF_bits
      = DBL_MAX_bits :=
  ⟨⟨by decide, by decide⟩,
    (fsqrt_clamps _ _ _ _ NEG_ONE_bits).1 (by decide),
    (fsqrt_clamps _ _ _ _ POS_INF_bits).2 (by decide)⟩


section MultiplyLemmas

variable {F : Type} [CommRing F]

/-- The accumulator `t` after `n` iterations of the inner loop started at `k`. -/
theorem matrix_multiply_dot_eq (A B : Nat → F) (AR BR i j n k : Nat) (t : F) :
    matrix_multiply_dot A B AR BR i j n k t
      = t + ∑ m in Finset.range n, A (i * AR + (k + m)) * B ((k + m) * BR + j) := by
  induction n generalizing k t with
  | zero => simp [matrix_multiply_dot]
  | succ n ih =>
    rw [matrix_multiply_dot, ih, Finset.sum_range_succ']
    have h : ∀ m, k + 1 + m = k + (m + 1) := fun m => by omega
    simp only [h, add_zero]
    ring

/-- The accumulator of one output cell: the inner product of row `i` of `A` (stride `AR`)
with column `j` of `B` (stride `BR`). -/
theorem matrix_multiply_dot_zero (A B : Nat → F) (AR BR i j : Nat) :
    matrix_multiply_dot A B AR BR i j AR 0 0
      = ∑ k in Finset.range AR, A (i * AR + k) * B (k * BR + j) := by
  rw [matrix_multiply_dot_eq]
  simp

/-- Cells of `C` after `n` iterations of the middle loop started at column `j0`. -/
theorem matrix_multiply_row_apply {F : Type} [Zero F] [Add F] [Mul F] (A B : Nat → F)
    (AR BR : Nat) (mul : F) (i n j0 : Nat) (C : Nat → F) (idx : Nat) :
    matrix_multiply_row A B AR BR mul i n j0 C idx
      = if i * BR + j0 ≤ idx ∧ idx < i * BR + j0 + n then
          matrix_multiply_dot A B AR BR i (idx - i * BR) AR 0 0 * mul
        else C idx := by
  induction n generalizing j0 C with
  | zero =>
    rw [matrix_multiply_row, if_neg]
    omega
  | succ n ih =>
    rw [matrix_multiply_row, ih]
    by_cases h1 : i * BR + (j0 + 1) ≤ idx ∧ idx < i * BR + (j0 + 1) + n
    · have h2 : i * BR + j0 ≤ idx ∧ idx < i * BR + j0 + (n + 1) := by omega
      rw [if_pos h1, if_pos h2]
    · rw [if_neg h1]
      by_cases h3 : idx = i * BR + j0
      · have h2 : i * BR + j0 ≤ idx ∧ idx < i * BR + j0 + (n + 1) := by omega
        rw [if_pos h2, h3, Function.update_same]
        congr 2
        omega
      · have h2 : ¬ (i * BR + j0 ≤ idx ∧ idx < i * BR + j0 + (n + 1)) := by omega
        rw [if_neg h2, Function.update_noteq h3]

/-- Cells of `C` after `n` iterations of the outer loop started at row `i0`. -/
theorem matrix_multiply_rows_apply {F : Type} [Zero F] [Add F] [Mul F] (A B : Nat → F)
    (AR BR : Nat) (mul : F) (n i0 : Nat) (C : Nat → F) (idx : Nat) :
    matrix_multiply_rows A B AR BR mul n i0 C idx
      = if i0 * BR ≤ idx ∧ idx < (i0 + n) * BR then
          matrix_multiply_dot A B AR BR (idx / BR) (idx % BR) AR 0 0 * mul
        else C idx := by
  induction n generalizing i0 C with
  | zero =>
    rw [matrix_multiply_rows, if_neg]
    rw [Nat.add_zero]
    omega
  | succ n ih =>
    rw [matrix_multiply_rows, ih]
    have e1 : (i0 + 1) * BR = i0 * BR + BR := by ring
    have e2 : (i0 + 1 + n) * BR = i0 * BR + BR + n * BR := by ring
    have e3 : (i0 + (n + 1)) * BR = i0 * BR + BR + n * BR := by ring
    rw [e1, e2, e3]
    by_cases h1 : i0 * BR + BR ≤ idx ∧ idx < i0 * BR + BR + n * BR
    · have h2 : i0 * BR ≤ idx ∧ idx < i0 * BR + BR + n * BR := by omega
      rw [if_pos h1, if_pos h2]
    · rw [if_neg h1, matrix_multiply_row_apply]
      by_cases h3 : i0 * BR + 0 ≤ idx ∧ idx < i0 * BR + 0 + BR
      · have h2 : i0 * BR ≤ idx ∧ idx < i0 * BR + BR + n * BR := by omega
        rw [if_pos h3, if_pos h2]
        have hBR : 0 < BR := by omega
        have hq : idx / BR = i0 := by
          apply Nat.div_eq_of_lt_le
          · omega
          · rw [e1]; omega
        have hr : idx % BR = idx - i0 * BR := by
          have hdm := Nat.div_add_mod idx BR
          rw [hq, Nat.mul_comm] at hdm
          omega
        rw [hq, hr]
      · have h2 : ¬ (i0 * BR ≤ idx ∧ idx < i0 * BR + BR + n * BR) := by omega
        rw [if_neg h3, if_neg h2]

/-- Every cell `i * BR + j` with `i < AC` and `j < BR` of the output of
`matrix_multiply_f` holds the scaled inner product. -/
theorem matrix_multiply_f_cell (C B A : Nat → F) (AR AC BR BC : Nat) (mul : F)
    (i j : Nat) (hi : i < AC) (hj : j < BR) :
    matrix_multiply_f C B A AR AC BR BC mul (i * BR + j)
      = (∑ k in Finset.range AR, A (i * AR + k) * B (k * BR + j)) * mul := by
  rw [matrix_multiply_f, matrix_multiply_rows_apply]
  have h1 : (i + 1) * BR ≤ AC * BR := Nat.mul_le_mul_right BR hi
  have h2 : (i + 1) * BR = i * BR + BR := by ring
  have h : 0 * BR ≤ i * BR + j ∧ i * BR + j < (0 + AC) * BR := by
    rw [Nat.zero_add]; omega
  rw [if_pos h, matrix_multiply_dot_zero]
  have hq : (i * BR + j) / BR = i := by
    rw [Nat.mul_comm, Nat.mul_add_div (by omega), Nat.div_eq_of_lt hj, Nat.add_zero]
  have hr : (i * BR + j) % BR = j := by
    rw [Nat.mul_comm, Nat.mul_add_mod, Nat.mod_eq_of_lt hj]
  rw [hq, hr]

end MultiplyLemmas

/-- C2 fails as stated for a non-square `B`: with `AR = BC = 2`, `AC = 1`, `BR = 3`,
`A = [1, 1]`, `B = [0, 1, 2, 3, 4, 5]` and `mul = 1` the routine stores
`C[0] = A[0]*B[0] + A[1]*B[3] = 3`, whereas entry `(0,0)` of `(A*B) * mul` with `B(r,c)`
read at `B[r*BC + c]` is `A[0]*B[0] + A[1]*B[2] = 2`. -/
theorem matrix_multiply_nonsquare_counterexample :
    matrix_multiply_f (fun _ => (0 : ℤ)) (fun k => (k : ℤ)) (fun _ => 1) 2 1 3 2 1 (0 * 3 + 0) = 3 ∧
    (∑ k in Finset.range 2, (fun _ => (1 : ℤ)) (0 * 2 + k) * (fun k => (k : ℤ)) (k * 2 + 0)) * 1 = 2 ∧
    matrix_multiply_f (fun _ => (0 : ℤ)) (fun k => (k : ℤ)) (fun _ => 1) 2 1 3 2 1 (0 * 3 + 0)
      ≠ (∑ k in Finset.range 2,
          (fun _ => (1 : ℤ)) (0 * 2 + k) * (fun k => (k : ℤ)) (k * 2 + 0)) * 1 := by
  refine ⟨by decide, by decide, by decide⟩

/-- C2 as amended: for all sizes with `AR == BC`, `matrix_multiply_f` computes
`C = (A*B) * mul`, where `A` is the `AC x AR` matrix stored row-major (`A(i,k)` at
`A[i*AR + k]`), `B` is the `BC x BR` matrix stored row-major (`B(r,c)` at `B[r*BR + c]`)
and `C` is the `AC x BR` matrix stored row-major. -/
theorem matrix_multiply_f_eq_product {F : Type} [CommRing F] (C B A : Nat → F)
    (AR AC BR BC : Nat) (mul : F) (hdim : AR = BC) :
    Matrix.of (fun (i : Fin AC) (j : Fin BR) =>
        matrix_multiply_f C B A AR AC BR BC mul (i * BR + j))
      = mul • (Matrix.of (fun (i : Fin AC) (k : Fin BC) => A (i * AR + k))
          * Matrix.of (fun (k : Fin BC) (j : Fin BR) => B (k * BR + j))) := by
  subst hdim
  ext i j
  rw [Matrix.of_apply, matrix_multiply_f_cell C B A AR AC BR AR mul i j i.isLt j.isLt,
    Matrix.smul_apply, Matrix.mul_apply, smul_eq_mul, mul_comm]
  congr 1
  rw [← Fin.sum_univ_eq_sum_range (fun k => A (i * AR + k) * B (k * BR + j)) AR]
  rfl

/-- Witness for the amended C2 at the non-square shape `AR = BC = 2`, `AC = 1`, `BR = 3`. -/
theorem matrix_multiply_f_eq_product_witness :
    (2 : Nat) = 2 ∧
    Matrix.of (fun (i : Fin 1) (j : Fin 3) =>
        matrix_multiply_f (fun _ => (0 : ℤ)) (fun k => (k : ℤ)) (fun _ => 1) 2 1 3 2 1 (i * 3 + j))
      = (1 : ℤ) • (Matrix.of (fun (i : Fin 1) (k : Fin 2) => (fun _ => (1 : ℤ)) (i * 2 + k))
          * Matrix.of (fun (k : Fin 2) (j : Fin 3) => (fun k => (k : ℤ)) (k * 3 + j))) :=
  ⟨rfl, matrix_multiply_f_eq_product _ _ _ 2 1 3 2 1 rfl⟩

/-- C9: identity multiply. For every `n ≥ 1` and every `n x n` row-major `B`,
`matrix_multiply_f` with `A` the `n x n` identity, `AR = AC = BR = BC = n` and `mul = 1`
leaves `C[i*n + j] = B[i*n + j]` for all `i, j < n`. -/
theorem matrix_multiply_identity {F : Type} [CommRing F] (n : Nat) (hn : 1 ≤ n)
    (C B A : Nat → F)
    (hA : ∀ i k, i < n → k < n → A (i * n + k) = if i = k then 1 else 0)
    (i j : Nat) (hi : i < n) (hj : j < n) :
    matrix_multiply_f C B A n n n n 1 (i * n + j) = B (i * n + j) := by
  have _ := hn
  rw [matrix_multiply_f_cell C B A n n n n 1 i j hi hj, mul_one]
  have hsum : ∑ k in Finset.range n, A (i * n + k) * B (k * n + j)
      = ∑ k in Finset.range n, if i = k then B (k * n + j) else 0 := by
    apply Finset.sum_congr rfl
    intro k hk
    rw [hA i k hi (Finset.mem_range.mp hk)]
    split <;> simp
  rw [hsum, Finset.sum_ite_eq]
  simp [hi]

/-- Witness for C9 at `n = 2`, `B = [10, 11, 12, 13]`, cell `(1, 0)`. -/
theorem matrix_multiply_identity_witness :
    (1 ≤ 2 ∧ 1 < 2 ∧ 0 < 2) ∧
    matrix_multiply_f (fun _ => (0 : ℤ)) (fun k => (k : ℤ) + 10)
      (fun k => if k = 0 ∨ k = 3 then 1 else 0) 2 2 2 2 1 (1 * 2 + 0)
      = (fun k => (k : ℤ) + 10) (1 * 2 + 0) :=
  ⟨by decide,
    matrix_multiply_identity 2 (by decide) _ _ (fun k => if k = 0 ∨ k = 3 then 1 else 0)
      (by
        intro i k hi hk
        interval_cases i <;> interval_cases k <;> simp)
      1 0 (by decide) (by decide)⟩

/-! ## Cholesky: the loops -/

section CholeskyLoops

variable {F : Type} [CommRing F]

/-- Cells `a + k*dim` with `a < dim` determine `a` and `k`. -/
theorem cell_index_inj {dim a b k j : Nat} (ha : a < dim) (hb : b < dim)
    (h : a + k * dim = b + j * dim) : a = b ∧ k = j := by
  have h1 : (a + k * dim) % dim = a := by
    rw [Nat.add_mul_mod_self_right, Nat.mod_eq_of_lt ha]
  have h2 : (b + j * dim) % dim = b := by
    rw [Nat.add_mul_mod_self_right, Nat.mod_eq_of_lt hb]
  have hab : a = b := by rw [← h1, ← h2, h]
  refine ⟨hab, ?_⟩
  subst hab
  have h3 : k * dim = j * dim := by omega
  exact Nat.eq_of_mul_eq_mul_right (by omega) h3

/-- The accumulator of the innermost loop after at most `n` iterations from `kn = k*dim`. -/
theorem cholesky_sum_eq (L : Nat → F) (dim i j : Nat) (hdim : 0 < dim) (n k : Nat) (s : F) :
    cholesky_sum L dim i j n (k * dim) s
      = s + ∑ m in Finset.range (min n (j - k)),
          L (i + (k + m) * dim) * L (j + (k + m) * dim) := by
  induction n generalizing k s with
  | zero => simp [cholesky_sum]
  | succ n ih =>
    rw [cholesky_sum]
    by_cases hk : k < j
    · have hg : k * dim < j * dim := Nat.mul_lt_mul_of_pos_right hk hdim
      have e : k * dim + dim = (k + 1) * dim := by ring
      rw [if_pos hg, e, ih]
      have hmin : min (n + 1) (j - k) = min n (j - (k + 1)) + 1 := by omega
      rw [hmin, Finset.sum_range_succ']
      have h : ∀ m, k + 1 + m = k + (m + 1) := fun m => by omega
      simp only [h, add_zero]
      ring
    · have hg : ¬ k * dim < j * dim := by
        intro hlt
        exact hk (Nat.lt_of_mul_lt_mul_right hlt)
      have hmin : min (n + 1) (j - k) = 0 := by omega
      rw [if_neg hg, hmin]
      simp

/-- The accumulator `s` of the innermost loop at its exit. -/
theorem cholesky_sum_closed (L : Nat → F) (dim i j : Nat) (hdim : 0 < dim) :
    cholesky_sum L dim i j j 0 0 = ∑ k in Finset.range j, L (i + k * dim) * L (j + k * dim) := by
  have h := cholesky_sum_eq L dim i j hdim j 0 0
  simp only [Nat.zero_mul, Nat.sub_zero, Nat.min_self, zero_add] at h
  exact h

/-- The iteration bound `j` of the innermost loop is never what stops it: any larger
bound gives the same accumulator, so the loop ends because its guard `kn < j*dim` fails. -/
theorem cholesky_sum_fuel (L : Nat → F) (dim i j : Nat) (hdim : 0 < dim) (n : Nat)
    (hn : j ≤ n) :
    cholesky_sum L dim i j n 0 0 = cholesky_sum L dim i j j 0 0 := by
  have h := cholesky_sum_eq L dim i j hdim n 0 0
  have h2 := cholesky_sum_eq L dim i j hdim j 0 0
  simp only [Nat.zero_mul, Nat.sub_zero, Nat.min_self] at h h2
  rw [h, h2, Nat.min_eq_right hn]

/-- The recurrence value of entry `(i, j)` only reads the cells `(i, k)` and `(j, k)`
with `k < j` and, below the diagonal, the cell `(j, j)`. -/
theorem cholesky_recurrence_congr (fsqrt recip : F → F) (dim : Nat) (A : Nat → F) (mul : F)
    (L M : Nat → F) (i j : Nat)
    (h1 : ∀ k, k < j → M (i + k * dim) = L (i + k * dim))
    (h2 : ∀ k, k < j → M (j + k * dim) = L (j + k * dim))
    (h3 : i ≠ j → M (j + j * dim) = L (j + j * dim)) :
    cholesky_recurrence fsqrt recip dim A mul M i j
      = cholesky_recurrence fsqrt recip dim A mul L i j := by
  have hs : ∑ k in Finset.range j, M (i + k * dim) * M (j + k * dim)
      = ∑ k in Finset.range j, L (i + k * dim) * L (j + k * dim) := by
    apply Finset.sum_congr rfl
    intro k hk
    rw [h1 k (Finset.mem_range.mp hk), h2 k (Finset.mem_range.mp hk)]
  unfold cholesky_recurrence
  by_cases hij : i = j
  · rw [if_pos hij, if_pos hij, hs]
  · rw [if_neg hij, if_neg hij, hs, h3 hij]

/-- Row loop: started at column `j0` on row `i`, it leaves every cell other than
`(i, j0) .. (i, i)` as it was, and each of those cells satisfies the recurrence on the
buffer the loop ends with. -/
theorem cholesky_row_spec (fsqrt recip : F → F) (dim : Nat) (A : Nat → F) (mul : F)
    (i : Nat) (hi : i < dim) (n j0 : Nat) (hn : j0 + n = i + 1) (L : Nat → F) :
    (∀ idx, (∀ j, j0 ≤ j → j ≤ i → idx ≠ i + j * dim) →
      cholesky_row fsqrt recip dim A mul i (i * dim) n j0 (j0 * dim) L idx = L idx) ∧
    (∀ j, j0 ≤ j → j ≤ i →
      cholesky_row fsqrt recip dim A mul i (i * dim) n j0 (j0 * dim) L (i + j * dim)
        = cholesky_recurrence fsqrt recip dim A mul
            (cholesky_row fsqrt recip dim A mul i (i * dim) n j0 (j0 * dim) L) i j) := by
  have hdim : 0 < dim := by omega
  induction n generalizing j0 L with
  | zero =>
    refine ⟨fun idx _ => rfl, ?_⟩
    intro j h1 h2
    omega
  | succ n ih =>
    have e : j0 * dim + dim = (j0 + 1) * dim := by ring
    rw [cholesky_row, e, cholesky_sum_closed L dim i j0 hdim]
    obtain ⟨iha, ihb⟩ := ih (j0 + 1) (by omega)
      (Function.update L (i + j0 * dim)
        (if i = j0 then
            fsqrt (A (i + i * dim) * mul
              - ∑ k in Finset.range j0, L (i + k * dim) * L (j0 + k * dim))
          else
            recip (L (j0 + j0 * dim)) * (A (i + j0 * dim) * mul
              - ∑ k in Finset.range j0, L (i + k * dim) * L (j0 + k * dim))))
    have hj0i : j0 ≤ i := by omega
    -- cells other than `(i, j0) .. (i, i)` are untouched
    have frame : ∀ idx, (∀ j, j0 ≤ j → j ≤ i → idx ≠ i + j * dim) →
        cholesky_row fsqrt recip dim A mul i (i * dim) n (j0 + 1) ((j0 + 1) * dim)
          (Function.update L (i + j0 * dim)
            (if i = j0 then
                fsqrt (A (i + i * dim) * mul
                  - ∑ k in Finset.range j0, L (i + k * dim) * L (j0 + k * dim))
              else
                recip (L (j0 + j0 * dim)) * (A (i + j0 * dim) * mul
                  - ∑ k in Finset.range j0, L (i + k * dim) * L (j0 + k * dim)))) idx
          = L idx := by
      intro idx hidx
      rw [iha idx (fun j hj1 hj2 => hidx j (by omega) hj2),
        Function.update_noteq (hidx j0 (le_refl _) hj0i)]
    refine ⟨frame, ?_⟩
    intro j hj1 hj2
    by_cases hj : j = j0
    · subst hj
      have hcell : ∀ j2, j + 1 ≤ j2 → j2 ≤ i → i + j * dim ≠ i + j2 * dim := by
        intro j2 h1 _ heq
        have := (cell_index_inj hi hi heq).2
        omega
      rw [iha (i + j * dim) hcell, Function.update_same]
      symm
      rw [cholesky_recurrence_congr fsqrt recip dim A mul L _ i j]
      · rfl
      · intro k hk
        apply frame
        intro j2 h1 _ heq
        have := (cell_index_inj hi hi heq).2
        omega
      · intro k hk
        apply frame
        intro j2 h1 _ heq
        have := (cell_index_inj (by omega) hi heq).1
        have := (cell_index_inj (by omega) hi heq).2
        omega
      · intro hne
        apply frame
        intro j2 h1 _ heq
        have := (cell_index_inj (by omega) hi heq).1
        omega
    · exact ihb j (by omega) hj2

/-- Outer loop: started at row `i0`, it leaves every cell other than the lower-triangle
cells `(i, j)`, `j ≤ i`, of the rows `i0 ≤ i < dim` as it was, and each of those cells
satisfies the recurrence on the buffer the loop ends with. -/
theorem cholesky_rows_spec (fsqrt recip : F → F) (dim : Nat) (A : Nat → F) (mul : F)
    (n i0 : Nat) (hn : i0 + n = dim) (L : Nat → F) :
    (∀ idx, (∀ i j, i0 ≤ i → i < dim → j ≤ i → idx ≠ i + j * dim) →
      cholesky_rows fsqrt recip dim A mul n i0 (i0 * dim) L idx = L idx) ∧
    (∀ i j, i0 ≤ i → i < dim → j ≤ i →
      cholesky_rows fsqrt recip dim A mul n i0 (i0 * dim) L (i + j * dim)
        = cholesky_recurrence fsqrt recip dim A mul
            (cholesky_rows fsqrt recip dim A mul n i0 (i0 * dim) L) i j) := by
  induction n generalizing i0 L with
  | zero =>
    refine ⟨fun idx _ => rfl, ?_⟩
    intro i j h1 h2
    omega
  | succ n ih =>
    have hi0 : i0 < dim := by omega
    have e : i0 * dim + dim = (i0 + 1) * dim := by ring
    rw [cholesky_rows, e]
    generalize hL1 : Function.update L (i0 + 0)
      (if i0 = 0 then fsqrt (A (i0 + i0 * dim) * mul) else recip (L 0) * (A i0 * mul)) = L1
    obtain ⟨rowa, rowb⟩ := cholesky_row_spec fsqrt recip dim A mul i0 hi0 i0 1 (by omega) L1
    rw [Nat.one_mul] at rowa rowb
    generalize hL2 : cholesky_row fsqrt recip dim A mul i0 (i0 * dim) i0 1 dim L1 = L2
    rw [hL2] at rowa rowb
    obtain ⟨iha, ihb⟩ := ih (i0 + 1) (by omega) L2
    generalize hL3 : cholesky_rows fsqrt recip dim A mul n (i0 + 1) ((i0 + 1) * dim) L2 = L3
    rw [hL3] at iha ihb
    -- the first cell of row `i0`
    have h10 : L1 (i0 + 0 * dim) = (if i0 = 0 then fsqrt (A (i0 + i0 * dim) * mul)
        else recip (L 0) * (A i0 * mul)) := by
      rw [← hL1, Nat.zero_mul, Function.update_same]
    have h20 : L2 (i0 + 0 * dim) = L1 (i0 + 0 * dim) := by
      apply rowa
      intro j h1 _ heq
      have := (cell_index_inj hi0 hi0 heq).2
      omega
    have hL20 : i0 ≠ 0 → L2 (0 + 0 * dim) = L 0 := by
      intro hne
      have h : L2 (0 + 0 * dim) = L1 (0 + 0 * dim) := by
        apply rowa
        intro j h1 _ heq
        have := (cell_index_inj (by omega) hi0 heq).1
        omega
      rw [h, ← hL1, Nat.zero_mul, Nat.add_zero, Function.update_noteq]
      omega
    have rec2 : ∀ j, j ≤ i0 →
        L2 (i0 + j * dim) = cholesky_recurrence fsqrt recip dim A mul L2 i0 j := by
      intro j hj
      by_cases hj0 : j = 0
      · subst hj0
        rw [h20, h10]
        unfold cholesky_recurrence
        by_cases hz : i0 = 0
        · simp [hz]
        · rw [if_neg hz, if_neg hz, hL20 hz]
          simp
      · exact rowb j (by omega) hj
    -- rows `≤ i0` are not touched by the remaining iterations
    have keep : ∀ r c, r ≤ i0 → L3 (r + c * dim) = L2 (r + c * dim) := by
      intro r c hr
      apply iha
      intro i j h1 h2 _ heq
      have := (cell_index_inj (by omega) h2 heq).1
      omega
    constructor
    · intro idx hidx
      rw [iha idx (fun i j h1 h2 h3 => hidx i j (by omega) h2 h3),
        rowa idx (fun j _ h2 => hidx i0 j (le_refl _) hi0 h2), ← hL1,
        Function.update_noteq]
      have := hidx i0 0 (le_refl _) hi0 (Nat.zero_le _)
      rw [Nat.zero_mul] at this
      exact this
    · intro i j h1 h2 h3
      by_cases hi : i = i0
      · subst hi
        rw [keep i j (le_refl _), rec2 j h3]
        symm
        apply cholesky_recurrence_congr
        · intro k _
          exact keep i k (le_refl _)
        · intro k _
          exact keep j k h3
        · intro _
          exact keep j j h3
      · exact ihb i j (by omega) h2 h3

/-- After `matrix_cholesky_decomp_scale_f`, every cell `i + j*dim` with `j ≤ i < dim`
satisfies the Cholesky-Banachiewicz recurrence on the final buffer. -/
theorem cholesky_final_recurrence (fsqrt recip : F → F) (dim : Nat) (L A : Nat → F) (mul : F)
    (i j : Nat) (hi : i < dim) (hj : j ≤ i) :
    matrix_cholesky_decomp_scale_f fsqrt recip dim L A mul (i + j * dim)
      = cholesky_recurrence fsqrt recip dim A mul
          (matrix_cholesky_decomp_scale_f fsqrt recip dim L A mul) i j := by
  have h := (cholesky_rows_spec fsqrt recip dim A mul dim 0 (by omega) L).2 i j
    (Nat.zero_le _) hi hj
  rw [Nat.zero_mul] at h
  exact h

/-- Every cell that `matrix_cholesky_decomp_scale_f` does not list as `i + j*dim` with
`j ≤ i < dim` keeps the value it had before the call. -/
theorem cholesky_final_frame (fsqrt recip : F → F) (dim : Nat) (L A : Nat → F) (mul : F)
    (idx : Nat) (hidx : ∀ i j, i < dim → j ≤ i → idx ≠ i + j * dim) :
    matrix_cholesky_decomp_scale_f fsqrt recip dim L A mul idx = L idx := by
  have h := (cholesky_rows_spec fsqrt recip dim A mul dim 0 (by omega) L).1 idx
    (fun i j _ h2 h3 => hidx i j h2 h3)
  rw [Nat.zero_mul] at h
  exact h

/-- The recurrence has one solution on the lower triangle: two buffers that both satisfy
it, for inputs that agree on the cells `i + j*dim`, `j ≤ i < dim`, agree on those cells. -/
theorem cholesky_recurrence_unique (fsqrt recip : F → F) (dim : Nat) (A B : Nat → F) (mul : F)
    (L M : Nat → F)
    (hAB : ∀ i j, i < dim → j ≤ i → A (i + j * dim) = B (i + j * dim))
    (hL : ∀ i j, i < dim → j ≤ i →
      L (i + j * dim) = cholesky_recurrence fsqrt recip dim A mul L i j)
    (hM : ∀ i j, i < dim → j ≤ i →
      M (i + j * dim) = cholesky_recurrence fsqrt recip dim B mul M i j) :
    ∀ i, i < dim → ∀ j, j ≤ i → L (i + j * dim) = M (i + j * dim) := by
  intro i
  induction i using Nat.strong_induction_on with
  | _ i IHi =>
    intro hi j
    induction j using Nat.strong_induction_on with
    | _ j IHj =>
      intro hj
      have hrow : ∀ k, k < j → L (i + k * dim) = M (i + k * dim) :=
        fun k hk => IHj k hk (by omega)
      have hcol : ∀ k, k ≤ j → i ≠ j → L (j + k * dim) = M (j + k * dim) :=
        fun k hk hne => IHi j (by omega) (by omega) k hk
      have hs : ∑ k in Finset.range j, L (i + k * dim) * L (j + k * dim)
          = ∑ k in Finset.range j, M (i + k * dim) * M (j + k * dim) := by
        apply Finset.sum_congr rfl
        intro k hk
        have hk2 := Finset.mem_range.mp hk
        by_cases hij : i = j
        · subst hij
          rw [hrow k hk2]
        · rw [hrow k hk2, hcol k (by omega) hij]
      rw [hL i j hi hj, hM i j hi hj]
      unfold cholesky_recurrence
      by_cases hij : i = j
      · rw [if_pos hij, if_pos hij, hs, hAB i i hi (le_refl _)]
      · rw [if_neg hij, if_neg hij, hs, hcol j (le_refl _) hij, hAB i j hi hj]

end CholeskyLoops

/-! ## Cholesky: why the recurrence factors a positive-definite matrix -/

section CholeskyAlgebra

open Finset

/-- A lower-triangular system with a nonzero diagonal can be solved column by column:
for every right-hand side `t` there is `y` with `Σ_{r<m} l r c * y r = t c` for all `c < m`. -/
theorem tri_solve (l : Nat → Nat → ℝ) (htri : ∀ r c, r < c → l r c = 0) (m : Nat)
    (hd : ∀ r, r < m → l r r ≠ 0) (t : Nat → ℝ) :
    ∃ y : Nat → ℝ, ∀ c, c < m → ∑ r in range m, l r c * y r = t c := by
  induction m generalizing t with
  | zero => exact ⟨fun _ => 0, fun c hc => absurd hc (Nat.not_lt_zero c)⟩
  | succ m ih =>
    obtain ⟨y, hy⟩ := ih (fun r hr => hd r (Nat.lt_succ_of_lt hr))
      (fun c => t c - l m c * (t m / l m m))
    refine ⟨Function.update y m (t m / l m m), ?_⟩
    intro c hc
    have hsum : ∑ r in range m, l r c * Function.update y m (t m / l m m) r
        = ∑ r in range m, l r c * y r := by
      apply sum_congr rfl
      intro r hr
      have hne : r ≠ m := by
        have := mem_range.mp hr
        omega
      rw [Function.update_noteq hne]
    rw [sum_range_succ, hsum, Function.update_same]
    by_cases hcm : c < m
    · rw [hy c hcm]
      ring
    · have hc2 : c = m := by omega
      subst hc2
      have hz : ∑ r in range c, l r c * y r = 0 := by
        apply sum_eq_zero
        intro r hr
        rw [htri r c (mem_range.mp hr), zero_mul]
      rw [hz, zero_add]
      field_simp [hd c (Nat.lt_succ_self c)]

/-- The quadratic form of a Gram matrix is a sum of products of column sums. -/
theorem gram_quadratic (n m : Nat) (x : Nat → ℝ) (f : Nat → Nat → ℝ) :
    ∑ a in range n, ∑ b in range n, x a * (∑ k in range m, f a k * f b k) * x b
      = ∑ k in range m, (∑ a in range n, x a * f a k) * (∑ b in range n, x b * f b k) := by
  have h1 : ∀ k, (∑ a in range n, x a * f a k) * (∑ b in range n, x b * f b k)
      = ∑ a in range n, ∑ b in range n, x a * (f a k * f b k) * x b := by
    intro k
    rw [sum_mul_sum]
    apply sum_congr rfl
    intro a _
    apply sum_congr rfl
    intro b _
    ring
  simp only [h1]
  have h2 : ∀ a b, x a * (∑ k in range m, f a k * f b k) * x b
      = ∑ k in range m, x a * (f a k * f b k) * x b := by
    intro a b
    rw [mul_sum, sum_mul]
  simp only [h2]
  have h3 : ∀ a, ∑ b in range n, ∑ k in range m, x a * (f a k * f b k) * x b
      = ∑ k in range m, ∑ b in range n, x a * (f a k * f b k) * x b :=
    fun a => sum_comm
  simp only [h3]
  exact sum_comm

/-- Positivity of the pivot: when `M` is positive definite and agrees with the inner
products of the rows `≤ i` of `l` everywhere except at `(i, i)`, the radicand
`M i i - Σ_{k<i} (l i k)^2` of the next diagonal entry is positive. -/
theorem pivot_pos (M l : Nat → Nat → ℝ) (n i : Nat) (hi : i < n)
    (hpd : ∀ x : Nat → ℝ, (∃ a, a < n ∧ x a ≠ 0) →
      0 < ∑ a in range n, ∑ b in range n, x a * M a b * x b)
    (htri : ∀ r c, r < c → l r c = 0)
    (hd : ∀ r, r < i → l r r ≠ 0)
    (H : ∀ a b, a ≤ i → b ≤ i → (a < i ∨ b < i) →
      M a b = ∑ k in range i, l a k * l b k) :
    0 < M i i - ∑ k in range i, l i k * l i k := by
  obtain ⟨y, hy⟩ := tri_solve l htri i hd (fun c => l i c)
  have hxi : (fun a => if a < i then y a else if a = i then (-1 : ℝ) else 0) i = -1 := by
    simp
  generalize hxdef : (fun a => if a < i then y a else if a = i then (-1 : ℝ) else 0) = x at hxi
  have hxlt : ∀ a, a < i → x a = y a := by
    intro a ha
    rw [← hxdef]
    simp [ha]
  have hxgt : ∀ a, i < a → x a = 0 := by
    intro a ha
    rw [← hxdef]
    have h1 : ¬ a < i := by omega
    have h2 : a ≠ i := by omega
    simp [h1, h2]
  have hpos := hpd x ⟨i, hi, by rw [hxi]; norm_num⟩
  -- only the indices `≤ i` contribute
  have hsub : range (i + 1) ⊆ range n := range_subset.2 (by omega)
  have hres : ∑ a in range n, ∑ b in range n, x a * M a b * x b
      = ∑ a in range (i + 1), ∑ b in range (i + 1), x a * M a b * x b := by
    rw [← sum_subset hsub]
    · apply sum_congr rfl
      intro a _
      rw [← sum_subset hsub]
      intro b _ hb
      have hb2 : i < b := by
        have := mt mem_range.mpr hb
        omega
      rw [hxgt b hb2, mul_zero]
    · intro a _ ha
      have ha2 : i < a := by
        have := mt mem_range.mpr ha
        omega
      apply sum_eq_zero
      intro b _
      rw [hxgt a ha2, zero_mul, zero_mul]
  -- `x` is orthogonal to the columns of the factor found so far
  have horth : ∀ k, k < i → ∑ a in range (i + 1), x a * l a k = 0 := by
    intro k hk
    rw [sum_range_succ, hxi]
    have h1 : ∑ a in range i, x a * l a k = ∑ a in range i, l a k * y a := by
      apply sum_congr rfl
      intro a ha
      rw [hxlt a (mem_range.mp ha), mul_comm]
    rw [h1, hy k hk]
    ring
  -- split the matrix into the Gram part and the pivot
  have hsplit : ∀ a, a ∈ range (i + 1) → ∀ b, b ∈ range (i + 1) →
      x a * M a b * x b = x a * (∑ k in range i, l a k * l b k) * x b
        + (if a = i then (if b = i then M i i - ∑ k in range i, l i k * l i k else 0)
            else 0) := by
    intro a ha b hb
    have ha2 : a ≤ i := Nat.lt_succ_iff.mp (mem_range.mp ha)
    have hb2 : b ≤ i := Nat.lt_succ_iff.mp (mem_range.mp hb)
    by_cases hai : a = i
    · by_cases hbi : b = i
      · subst hai
        subst hbi
        rw [if_pos rfl, if_pos rfl, hxi]
        ring
      · rw [if_pos hai, if_neg hbi, add_zero, H a b ha2 hb2 (Or.inr (by omega))]
    · rw [if_neg hai, add_zero, H a b ha2 hb2 (Or.inl (by omega))]
  have hQ : ∑ a in range (i + 1), ∑ b in range (i + 1), x a * M a b * x b
      = M i i - ∑ k in range i, l i k * l i k := by
    have h1 : ∑ a in range (i + 1), ∑ b in range (i + 1), x a * M a b * x b
        = ∑ a in range (i + 1), ∑ b in range (i + 1),
            (x a * (∑ k in range i, l a k * l b k) * x b
              + (if a = i then (if b = i then M i i - ∑ k in range i, l i k * l i k else 0)
                  else 0)) := by
      apply sum_congr rfl
      intro a ha
      apply sum_congr rfl
      intro b hb
      exact hsplit a ha b hb
    rw [h1]
    simp only [sum_add_distrib]
    rw [gram_quadratic]
    have h2 : ∑ k in range i,
        (∑ a in range (i + 1), x a * l a k) * (∑ b in range (i + 1), x b * l b k) = 0 := by
      apply sum_eq_zero
      intro k hk
      rw [horth k (mem_range.mp hk), zero_mul]
    rw [h2, zero_add]
    simp
  rw [hres, hQ] at hpos
  exact hpos

/-- A lower-triangular `l` that satisfies the Cholesky-Banachiewicz recurrence for a
symmetric positive-definite `M` has a positive diagonal and rows whose inner products
are the entries of `M`. -/
theorem cholesky_gram (M l : Nat → Nat → ℝ) (n : Nat)
    (hpd : ∀ x : Nat → ℝ, (∃ a, a < n ∧ x a ≠ 0) →
      0 < ∑ a in range n, ∑ b in range n, x a * M a b * x b)
    (hsym : ∀ a b, a < n → b < n → M a b = M b a)
    (htri : ∀ r c, r < c → l r c = 0)
    (hdiag : ∀ i, i < n → l i i = Real.sqrt (M i i - ∑ k in range i, l i k * l i k))
    (hoff : ∀ i j, i < n → j < i →
      l i j = 1 / l j j * (M i j - ∑ k in range j, l i k * l j k)) :
    ∀ i, i < n →
      (∀ j, j ≤ i → ∑ k in range (j + 1), l i k * l j k = M i j) ∧ 0 < l i i := by
  intro i
  induction i using Nat.strong_induction_on with
  | _ i IH =>
    intro hi
    have hprev : ∀ r, r < i →
        (∀ j, j ≤ r → ∑ k in range (j + 1), l r k * l j k = M r j) ∧ 0 < l r r :=
      fun r hr => IH r hr (by omega)
    -- the entries left of the diagonal
    have hoffi : ∀ j, j < i → ∑ k in range (j + 1), l i k * l j k = M i j := by
      intro j hj
      have hjj : l j j ≠ 0 := ne_of_gt (hprev j hj).2
      rw [sum_range_succ, hoff i j hi hj]
      field_simp
    -- entries of `M` as inner products of rows of the factor, over `k < i`
    have hext : ∀ a b, a ≤ i → b ≤ a → b < i →
        M a b = ∑ k in range i, l a k * l b k := by
      intro a b ha hba hb
      have h1 : ∑ k in range (b + 1), l a k * l b k = M a b := by
        by_cases hai : a = i
        · subst hai
          exact hoffi b hb
        · exact (hprev a (by omega)).1 b hba
      rw [← h1]
      apply sum_subset (range_subset.2 (by omega))
      intro k _ hk
      have hk2 : b < k := by
        have := mt mem_range.mpr hk
        omega
      rw [htri b k hk2, mul_zero]
    have H : ∀ a b, a ≤ i → b ≤ i → (a < i ∨ b < i) →
        M a b = ∑ k in range i, l a k * l b k := by
      intro a b ha hb hab
      by_cases hba : b ≤ a
      · exact hext a b ha hba (by omega)
      · rw [hsym a b (by omega) (by omega), hext b a hb (by omega) (by omega)]
        apply sum_congr rfl
        intro k _
        ring
    have hpiv := pivot_pos M l n i hi hpd htri (fun r hr => ne_of_gt (hprev r hr).2) H
    have hii : 0 < l i i := by
      rw [hdiag i hi]
      exact Real.sqrt_pos.2 hpiv
    refine ⟨?_, hii⟩
    intro j hj
    by_cases hji : j = i
    · subst hji
      rw [sum_range_succ, hdiag j hi, Real.mul_self_sqrt (le_of_lt hpiv)]
      ring
    · exact hoffi j (by omega)

/-- Positive definiteness of the row-major reading of `A`, scaled by `mul > 0`, as a
statement about sums over `Finset.range dim`. -/
theorem posDef_nat (dim : Nat) (A : Nat → ℝ) (mul : ℝ) (hmul : 0 < mul)
    (hA : (Matrix.of fun (i j : Fin dim) => A (i * dim + j)).PosDef)
    (x : Nat → ℝ) (hx : ∃ a, a < dim ∧ x a ≠ 0) :
    0 < ∑ a in range dim, ∑ b in range dim, x a * (A (a * dim + b) * mul) * x b := by
  obtain ⟨a, ha, hxa⟩ := hx
  have h := hA.2 (fun a : Fin dim => x a) (fun h0 => hxa (congrFun h0 ⟨a, ha⟩))
  simp only [Matrix.dotProduct, Matrix.mulVec, Pi.star_apply, star_trivial,
    Matrix.of_apply] at h
  rw [Fin.sum_univ_eq_sum_range
    (fun a => x a * ∑ b : Fin dim, A (a * dim + b) * x b) dim] at h
  have h2 : ∀ a, ∑ b : Fin dim, A (a * dim + b) * x b
      = ∑ b in range dim, A (a * dim + b) * x b :=
    fun a => Fin.sum_univ_eq_sum_range (fun b => A (a * dim + b) * x b) dim
  simp only [h2] at h
  have h3 : ∑ a in range dim, ∑ b in range dim, x a * (A (a * dim + b) * mul) * x b
      = mul * ∑ a in range dim, x a * ∑ b in range dim, A (a * dim + b) * x b := by
    rw [mul_sum]
    apply sum_congr rfl
    intro a _
    rw [mul_sum, mul_sum]
    apply sum_congr rfl
    intro b _
    ring
  rw [h3]
  exact mul_pos hmul h

/-- A positive-definite row-major buffer is symmetric. -/
theorem posDef_symm (dim : Nat) (A : Nat → ℝ) (hA : (matrix_of_buffer dim A).PosDef)
    (a b : Nat) (ha : a < dim) (hb : b < dim) : A (a * dim + b) = A (b * dim + a) := by
  have h := hA.1.apply ⟨a, ha⟩ ⟨b, hb⟩
  simp only [matrix_of_buffer, Matrix.of_apply, star_trivial] at h
  exact h.symm

/-- With the exact backend (`fsqrt` the real square root, `recip(x) = 1/x`), a
positive-definite `A` and `mul > 0`, the rows of the factor left in the buffer have the
inner products `A[i][j] * mul`, and its diagonal is positive. -/
theorem cholesky_factor_gram (dim : Nat) (L A : Nat → ℝ) (mul : ℝ) (hmul : 0 < mul)
    (hA : (matrix_of_buffer dim A).PosDef) (i : Nat) (hi : i < dim) :
    (∀ j, j ≤ i →
      ∑ k in range (j + 1),
        cholesky_factor dim
            (matrix_cholesky_decomp_scale_f Real.sqrt (fun x => 1 / x) dim L A mul) i k
          * cholesky_factor dim
            (matrix_cholesky_decomp_scale_f Real.sqrt (fun x => 1 / x) dim L A mul) j k
        = A (i * dim + j) * mul) ∧
    0 < cholesky_factor dim
      (matrix_cholesky_decomp_scale_f Real.sqrt (fun x => 1 / x) dim L A mul) i i := by
  have hrec := cholesky_final_recurrence Real.sqrt (fun x => 1 / x) dim L A mul
  generalize matrix_cholesky_decomp_scale_f Real.sqrt (fun x => 1 / x) dim L A mul = Lf
    at hrec ⊢
  have hsum : ∀ r c, c ≤ r →
      ∑ k in range c, Lf (r + k * dim) * Lf (c + k * dim)
        = ∑ k in range c, cholesky_factor dim Lf r k * cholesky_factor dim Lf c k := by
    intro r c hcr
    apply sum_congr rfl
    intro k hk
    have hk2 := mem_range.mp hk
    rw [cholesky_factor, cholesky_factor, if_pos (by omega), if_pos (by omega)]
  refine cholesky_gram (fun a b => A (a * dim + b) * mul) (cholesky_factor dim Lf) dim
    (posDef_nat dim A mul hmul hA) ?_ ?_ ?_ ?_ i hi
  · intro a b ha hb
    show A (a * dim + b) * mul = A (b * dim + a) * mul
    rw [posDef_symm dim A hA a b ha hb]
  · intro r c hrc
    rw [cholesky_factor, if_neg (by omega)]
  · intro r hr
    show cholesky_factor dim Lf r r
      = Real.sqrt (A (r * dim + r) * mul
          - ∑ k in range r, cholesky_factor dim Lf r k * cholesky_factor dim Lf r k)
    rw [← hsum r r (le_refl r)]
    conv_lhs => rw [cholesky_factor, if_pos (le_refl r), hrec r r hr (le_refl r)]
    rw [cholesky_recurrence, if_pos rfl, Nat.add_comm r (r * dim)]
  · intro r c hr hcr
    show cholesky_factor dim Lf r c
      = 1 / cholesky_factor dim Lf c c * (A (r * dim + c) * mul
          - ∑ k in range c, cholesky_factor dim Lf r k * cholesky_factor dim Lf c k)
    rw [← hsum r c (le_of_lt hcr)]
    conv_lhs => rw [cholesky_factor, if_pos (le_of_lt hcr), hrec r c hr (le_of_lt hcr)]
    rw [cholesky_recurrence, if_neg (by omega), cholesky_factor, if_pos (le_refl c),
      Nat.add_comm r (c * dim), posDef_symm dim A hA c r (by omega) hr]

/-- Inner product of rows `i` and `j` of the factor over all `dim` columns. -/
theorem cholesky_factor_product (dim : Nat) (L A : Nat → ℝ) (mul : ℝ) (hmul : 0 < mul)
    (hA : (matrix_of_buffer dim A).PosDef) (i j : Nat) (hi : i < dim) (hj : j < dim) :
    ∑ k in range dim,
      cholesky_factor dim
          (matrix_cholesky_decomp_scale_f Real.sqrt (fun x => 1 / x) dim L A mul) i k
        * cholesky_factor dim
          (matrix_cholesky_decomp_scale_f Real.sqrt (fun x => 1 / x) dim L A mul) j k
      = A (i * dim + j) * mul := by
  have hg := cholesky_factor_gram dim L A mul hmul hA
  generalize matrix_cholesky_decomp_scale_f Real.sqrt (fun x => 1 / x) dim L A mul = Lf
    at hg ⊢
  -- for `b ≤ a` the sum over `k ≤ b` extends to all columns
  have hext : ∀ a b, a < dim → b ≤ a →
      ∑ k in range dim, cholesky_factor dim Lf a k * cholesky_factor dim Lf b k
        = A (a * dim + b) * mul := by
    intro a b ha hba
    rw [← (hg a ha).1 b hba]
    symm
    apply sum_subset (range_subset.2 (by omega))
    intro k _ hk
    have hk2 : b < k := by
      have := mt mem_range.mpr hk
      omega
    rw [cholesky_factor, cholesky_factor, if_neg (by omega : ¬ k ≤ b), mul_zero]
  by_cases hji : j ≤ i
  · exact hext i j hi hji
  · rw [posDef_symm dim A hA i j hi hj, ← hext j i hj (by omega)]
    apply sum_congr rfl
    intro k _
    ring

end CholeskyAlgebra

/-! ## Cholesky: the specification's example -/

/-- The example matrix `[[4, 2], [2, 3]]` is positive definite:
`xᵀ A x = (2 x₀ + x₁)² + 2 x₁²`. -/
theorem example_A_posDef : (matrix_of_buffer 2 (example_A : Nat → ℝ)).PosDef := by
  constructor
  · ext i j
    fin_cases i <;> fin_cases j <;>
      simp [matrix_of_buffer, example_A, Matrix.conjTranspose_apply]
  · intro x hx
    have hne : x 0 ≠ 0 ∨ x 1 ≠ 0 := by
      by_contra hcon
      push_neg at hcon
      apply hx
      ext i
      fin_cases i
      · exact hcon.1
      · exact hcon.2
    have hval : Matrix.dotProduct (star x) ((matrix_of_buffer 2 (example_A : Nat → ℝ)).mulVec x)
        = (2 * x 0 + x 1) ^ 2 + 2 * x 1 ^ 2 := by
      simp [Matrix.dotProduct, Matrix.mulVec, Fin.sum_univ_two, matrix_of_buffer, example_A]
      ring
    rw [hval]
    rcases hne with h | h
    · by_cases h1 : x 1 = 0
      · have : 0 < (2 * x 0) ^ 2 := by positivity
        rw [h1]
        nlinarith
      · have : 0 < x 1 ^ 2 := by positivity
        nlinarith [sq_nonneg (2 * x 0 + x 1)]
    · have : 0 < x 1 ^ 2 := by positivity
      nlinarith [sq_nonneg (2 * x 0 + x 1)]

/-- The square root the example needs. -/
theorem sqrt_four : Real.sqrt 4 = 2 := by
  rw [show (4 : ℝ) = 2 ^ 2 by norm_num]
  exact Real.sqrt_sq (by norm_num)

/-- The buffer after the call on the example `dim = 2`, `A = [4, 2, 2, 3]`, `mul = 1`:
`L[0] = 2`, `L[1] = 1`, `L[3] = sqrt 2`, and `L[2]` is what it was before. -/
theorem cholesky_example_cells (L : Nat → ℝ) :
    matrix_cholesky_decomp_scale_f Real.sqrt (fun x => 1 / x) 2 L example_A 1 0 = 2 ∧
    matrix_cholesky_decomp_scale_f Real.sqrt (fun x => 1 / x) 2 L example_A 1 1 = 1 ∧
    matrix_cholesky_decomp_scale_f Real.sqrt (fun x => 1 / x) 2 L example_A 1 2 = L 2 ∧
    matrix_cholesky_decomp_scale_f Real.sqrt (fun x => 1 / x) 2 L example_A 1 3
      = Real.sqrt 2 := by
  simp [matrix_cholesky_decomp_scale_f, cholesky_rows, cholesky_row, cholesky_sum,
    Function.update, example_A, sqrt_four]
  norm_num

/-! ## Cholesky: the claims -/

/-- C1: in exact real arithmetic (`fsqrt` the real square root, `recip(x) = 1/x`), for
every `dim ≥ 1`, every symmetric positive-definite `dim x dim` matrix `A` and every
`mul > 0`, the factor `L` that `matrix_cholesky_decomp_scale_f` leaves in the buffer
(entry `(i, j)`, `j ≤ i`, in cell `L[i + j*dim]`, zero above the diagonal) satisfies
`L * Lᵀ = A * mul`. -/
theorem cholesky_decomp_correct (dim : Nat) (hdim : 1 ≤ dim) (L A : Nat → ℝ) (mul : ℝ)
    (hmul : 0 < mul) (hA : (matrix_of_buffer dim A).PosDef) :
    (Matrix.of fun (i j : Fin dim) =>
        cholesky_factor dim
          (matrix_cholesky_decomp_scale_f Real.sqrt (fun x => 1 / x) dim L A mul) i j)
      * (Matrix.of fun (i j : Fin dim) =>
        cholesky_factor dim
          (matrix_cholesky_decomp_scale_f Real.sqrt (fun x => 1 / x) dim L A mul) i j).transpose
      = mul • matrix_of_buffer dim A := by
  have _ := hdim
  ext i j
  rw [Matrix.mul_apply, Matrix.smul_apply, smul_eq_mul, mul_comm]
  simp only [Matrix.transpose_apply, Matrix.of_apply, matrix_of_buffer]
  rw [← cholesky_factor_product dim L A mul hmul hA i j i.isLt j.isLt]
  exact Fin.sum_univ_eq_sum_range (fun k =>
    cholesky_factor dim
        (matrix_cholesky_decomp_scale_f Real.sqrt (fun x => 1 / x) dim L A mul) i k
      * cholesky_factor dim
        (matrix_cholesky_decomp_scale_f Real.sqrt (fun x => 1 / x) dim L A mul) j k) dim

/-- Witness for C1 at `dim = 2`, `A = [[4, 2], [2, 3]]`, `mul = 2`, `L` initially zero. -/
theorem cholesky_decomp_correct_witness :
    (1 ≤ 2 ∧ (0 : ℝ) < 2 ∧ (matrix_of_buffer 2 (example_A : Nat → ℝ)).PosDef) ∧
    (Matrix.of fun (i j : Fin 2) =>
        cholesky_factor 2
          (matrix_cholesky_decomp_scale_f Real.sqrt (fun x => 1 / x) 2 (fun _ => 0)
            example_A 2) i j)
      * (Matrix.of fun (i j : Fin 2) =>
        cholesky_factor 2
          (matrix_cholesky_decomp_scale_f Real.sqrt (fun x => 1 / x) 2 (fun _ => 0)
            example_A 2) i j).transpose
      = (2 : ℝ) • matrix_of_buffer 2 (example_A : Nat → ℝ) :=
  ⟨⟨by decide, by norm_num, example_A_posDef⟩,
    cholesky_decomp_correct 2 (by decide) (fun _ => 0) example_A 2 (by norm_num)
      example_A_posDef⟩

/-- C3 fails as stated: on the claim's own example (`dim = 2`, `A = [4, 2, 2, 3]`,
`mul = 1`), starting from a buffer filled with `7`, the routine ends with `L[1] = 1`
(the claim: `0`) and `L[2] = 7`, the value from before the call (the claim: `1`). -/
theorem cholesky_row_major_counterexample :
    matrix_cholesky_decomp_scale_f Real.sqrt (fun x => 1 / x) 2 (fun _ => 7) example_A 1 1 = 1 ∧
    matrix_cholesky_decomp_scale_f Real.sqrt (fun x => 1 / x) 2 (fun _ => 7) example_A 1 1 ≠ 0 ∧
    matrix_cholesky_decomp_scale_f Real.sqrt (fun x => 1 / x) 2 (fun _ => 7) example_A 1 2 = 7 ∧
    matrix_cholesky_decomp_scale_f Real.sqrt (fun x => 1 / x) 2 (fun _ => 7) example_A 1 2 ≠ 1 := by
  have h := cholesky_example_cells (fun _ => 7)
  rw [h.2.1, h.2.2.1]
  norm_num

/-- C3 as amended: read as a row-major `dim x dim` matrix, the buffer holds in its upper
triangle the transpose of the lower-triangular Cholesky factor, entry `L[i][j]`, `j ≤ i`,
being the cell `j*dim + i`: the upper-triangular `U` with `U(r, c)` the cell `r*dim + c`
for `r ≤ c` has a positive diagonal and `Uᵀ * U = A * mul`.  Every cell below the
diagonal (index `r*dim + c` with `c < r < dim`) keeps the value it had before the call. -/
theorem cholesky_row_major_transpose (dim : Nat) (hdim : 1 ≤ dim) (L A : Nat → ℝ) (mul : ℝ)
    (hmul : 0 < mul) (hA : (matrix_of_buffer dim A).PosDef) :
    ((Matrix.of fun (r c : Fin dim) =>
        if (r : Nat) ≤ c then
          matrix_cholesky_decomp_scale_f Real.sqrt (fun x => 1 / x) dim L A mul (r * dim + c)
        else 0).transpose
      * (Matrix.of fun (r c : Fin dim) =>
        if (r : Nat) ≤ c then
          matrix_cholesky_decomp_scale_f Real.sqrt (fun x => 1 / x) dim L A mul (r * dim + c)
        else 0)
      = mul • matrix_of_buffer dim A) ∧
    (∀ r, r < dim →
      0 < matrix_cholesky_decomp_scale_f Real.sqrt (fun x => 1 / x) dim L A mul (r * dim + r)) ∧
    (∀ r c, c < r → r < dim →
      matrix_cholesky_decomp_scale_f Real.sqrt (fun x => 1 / x) dim L A mul (r * dim + c)
        = L (r * dim + c)) := by
  have _ := hdim
  have hprod := cholesky_factor_product dim L A mul hmul hA
  have hgram := cholesky_factor_gram dim L A mul hmul hA
  have hframe := cholesky_final_frame Real.sqrt (fun x => 1 / x) dim L A mul
  generalize matrix_cholesky_decomp_scale_f Real.sqrt (fun x => 1 / x) dim L A mul = Lf
    at hprod hgram hframe ⊢
  have hcell : ∀ r c : Nat, (if r ≤ c then Lf (r * dim + c) else 0)
      = cholesky_factor dim Lf c r := by
    intro r c
    rw [cholesky_factor, Nat.add_comm c (r * dim)]
  refine ⟨?_, ?_, ?_⟩
  · ext i j
    rw [Matrix.mul_apply, Matrix.smul_apply, smul_eq_mul, mul_comm]
    simp only [Matrix.transpose_apply, Matrix.of_apply, matrix_of_buffer, hcell]
    rw [← hprod i j i.isLt j.isLt]
    exact Fin.sum_univ_eq_sum_range (fun k =>
      cholesky_factor dim Lf i k * cholesky_factor dim Lf j k) dim
  · intro r hr
    have h := (hgram r hr).2
    rw [cholesky_factor, if_pos (le_refl r), Nat.add_comm] at h
    exact h
  · intro r c hcr hr
    apply hframe
    intro i j hi hji heq
    rw [Nat.add_comm (r * dim) c] at heq
    have h1 := (cell_index_inj (by omega) hi heq).1
    have h2 := (cell_index_inj (by omega) hi heq).2
    omega

/-- Witness for the amended C3 on the claim's example `dim = 2`, `A = [4, 2, 2, 3]`,
`mul = 1`, starting from a buffer filled with `7`: the buffer ends as
`[2, 1, 7, sqrt 2]`. -/
theorem cholesky_row_major_transpose_witness :
    (1 ≤ 2 ∧ (0 : ℝ) < 1 ∧ (matrix_of_buffer 2 (example_A : Nat → ℝ)).PosDef) ∧
    (∀ r c, c < r → r < 2 →
      matrix_cholesky_decomp_scale_f Real.sqrt (fun x => 1 / x) 2 (fun _ => 7) example_A 1
          (r * 2 + c)
        = (fun _ => (7 : ℝ)) (r * 2 + c)) ∧
    matrix_cholesky_decomp_scale_f Real.sqrt (fun x => 1 / x) 2 (fun _ => 7) example_A 1 0 = 2 ∧
    matrix_cholesky_decomp_scale_f Real.sqrt (fun x => 1 / x) 2 (fun _ => 7) example_A 1 3
      = Real.sqrt 2 :=
  ⟨⟨by decide, by norm_num, example_A_posDef⟩,
    (cholesky_row_major_transpose 2 (by decide) (fun _ => 7) example_A 1 (by norm_num)
      example_A_posDef).2.2,
    (cholesky_example_cells (fun _ => 7)).1,
    (cholesky_example_cells (fun _ => 7)).2.2.2⟩

/-- C4 fails as stated: two runs on `dim = 2`, `A = [4, 2, 2, 3]`, `mul = 1` that differ
only in the initial contents of `L` (all `0` against all `7`) end with different buffers:
cell `2` still holds `0` in one and `7` in the other. -/
theorem cholesky_prior_value_counterexample :
    matrix_cholesky_decomp_scale_f Real.sqrt (fun x => 1 / x) 2 (fun _ => 0) example_A 1 2 = 0 ∧
    matrix_cholesky_decomp_scale_f Real.sqrt (fun x => 1 / x) 2 (fun _ => 7) example_A 1 2 = 7 ∧
    matrix_cholesky_decomp_scale_f Real.sqrt (fun x => 1 / x) 2 (fun _ => 0) example_A 1 2
      ≠ matrix_cholesky_decomp_scale_f Real.sqrt (fun x => 1 / x) 2 (fun _ => 7) example_A 1 2 := by
  rw [(cholesky_example_cells (fun _ => 0)).2.2.1, (cholesky_example_cells (fun _ => 7)).2.2.1]
  norm_num

/-- C4 as amended: for every `dim ≥ 1`, `A`, `mul` and backend, the cells `i + j*dim` with
`j ≤ i < dim` after the call are determined by `(dim, A, mul)` alone: two runs that
differ only in the initial contents of `L` agree on them.  The other cells of the
`dim x dim` buffer, `i + j*dim` with `i < j < dim`, keep their prior value. -/
theorem cholesky_determined_cells {F : Type} [CommRing F] (fsqrt recip : F → F) (dim : Nat)
    (hdim : 1 ≤ dim) (L1 L2 A : Nat → F) (mul : F) :
    (∀ i j, i < dim → j ≤ i →
      matrix_cholesky_decomp_scale_f fsqrt recip dim L1 A mul (i + j * dim)
        = matrix_cholesky_decomp_scale_f fsqrt recip dim L2 A mul (i + j * dim)) ∧
    (∀ i j, j < dim → i < j →
      matrix_cholesky_decomp_scale_f fsqrt recip dim L1 A mul (i + j * dim)
        = L1 (i + j * dim)) := by
  have _ := hdim
  constructor
  · intro i j hi hj
    exact cholesky_recurrence_unique fsqrt recip dim A A mul _ _ (fun _ _ _ _ => rfl)
      (fun a b ha hb => cholesky_final_recurrence fsqrt recip dim L1 A mul a b ha hb)
      (fun a b ha hb => cholesky_final_recurrence fsqrt recip dim L2 A mul a b ha hb)
      i hi j hj
  · intro i j hj hij
    apply cholesky_final_frame
    intro a b ha hba heq
    have h1 := (cell_index_inj (by omega) ha heq).1
    have h2 := (cell_index_inj (by omega) ha heq).2
    omega

/-- Witness for the amended C4 at `dim = 2`, `A = [4, 2, 2, 3]`, `mul = 1`, with the
exact backend and initial buffers filled with `0` and with `7`. -/
theorem cholesky_determined_cells_witness :
    1 ≤ 2 ∧
    (∀ i j, i < 2 → j ≤ i →
      matrix_cholesky_decomp_scale_f Real.sqrt (fun x => 1 / x) 2 (fun _ => 0) example_A 1
          (i + j * 2)
        = matrix_cholesky_decomp_scale_f Real.sqrt (fun x => 1 / x) 2 (fun _ => 7) example_A 1
          (i + j * 2)) ∧
    (∀ i j, j < 2 → i < j →
      matrix_cholesky_decomp_scale_f Real.sqrt (fun x => 1 / x) 2 (fun _ => 0) example_A 1
          (i + j * 2)
        = (fun _ => (0 : ℝ)) (i + j * 2)) :=
  ⟨by decide,
    cholesky_determined_cells Real.sqrt (fun x => 1 / x) 2 (by decide) (fun _ => 0)
      (fun _ => 7) example_A 1⟩

/-! ## `vector_add_f` on a flat memory -/

section VectorMemoryLemmas

variable {F : Type} [CommRing F]

/-- The visit log of `vector_add_f_mem`: the indices `dim - 1, ..., 0`, in that order. -/
theorem vector_add_f_mem_visited (dim result v1 v2 : Nat) (mem : Nat → F)
    (visited : List Nat) :
    (vector_add_f_mem dim result v1 v2 (mem, visited)).2
      = visited ++ (List.range dim).reverse := by
  induction dim generalizing mem visited with
  | zero => simp [vector_add_f_mem]
  | succ n ih =>
    rw [vector_add_f_mem, ih, List.range_succ, List.reverse_append]
    simp

/-- The memory after `vector_add_f_mem`, when the `dim` cells of `result` are disjoint
from the `dim` cells of `v1` and of `v2`. -/
theorem vector_add_f_mem_apply (dim result v1 v2 : Nat) (mem : Nat → F)
    (visited : List Nat)
    (h1 : ∀ i k, i < dim → k < dim → result + i ≠ v1 + k)
    (h2 : ∀ i k, i < dim → k < dim → result + i ≠ v2 + k) (a : Nat) :
    (vector_add_f_mem dim result v1 v2 (mem, visited)).1 a
      = if result ≤ a ∧ a < result + dim then
          mem (v1 + (a - result)) + mem (v2 + (a - result))
        else mem a := by
  induction dim generalizing mem visited with
  | zero =>
    rw [vector_add_f_mem, if_neg]
    omega
  | succ n ih =>
    rw [vector_add_f_mem,
      ih _ _ (fun i k hi hk => h1 i k (by omega) (by omega))
        (fun i k hi hk => h2 i k (by omega) (by omega))]
    by_cases ha : result ≤ a ∧ a < result + n
    · have ha2 : result ≤ a ∧ a < result + (n + 1) := by omega
      have e1 : v1 + (a - result) ≠ result + n :=
        fun h => h1 n (a - result) (by omega) (by omega) h.symm
      have e2 : v2 + (a - result) ≠ result + n :=
        fun h => h2 n (a - result) (by omega) (by omega) h.symm
      rw [if_pos ha, if_pos ha2, Function.update_noteq e1, Function.update_noteq e2]
    · rw [if_neg ha]
      by_cases han : a = result + n
      · have ha2 : result ≤ a ∧ a < result + (n + 1) := by omega
        have e : a - result = n := by omega
        rw [if_pos ha2, han, Function.update_same, ← han, e]
      · have ha2 : ¬ (result ≤ a ∧ a < result + (n + 1)) := by omega
        rw [if_neg ha2, Function.update_noteq han]

/-- The flat-memory embedding computes, on the cells of `result`, what the buffer
embedding `vector_add_f` computes. -/
theorem vector_add_f_mem_eq (dim result v1 v2 : Nat) (mem : Nat → F)
    (h1 : ∀ i k, i < dim → k < dim → result + i ≠ v1 + k)
    (h2 : ∀ i k, i < dim → k < dim → result + i ≠ v2 + k) (i : Nat) :
    (vector_add_f_mem dim result v1 v2 (mem, [])).1 (result + i)
      = vector_add_f dim (fun k => mem (result + k)) (fun k => mem (v1 + k))
          (fun k => mem (v2 + k)) i := by
  rw [vector_add_f_mem_apply dim result v1 v2 mem [] h1 h2, vector_add_f_apply]
  by_cases hi : i < dim
  · have h : result ≤ result + i ∧ result + i < result + dim := by omega
    rw [if_pos h, if_pos hi, Nat.add_sub_cancel_left]
  · have h : ¬ (result ≤ result + i ∧ result + i < result + dim) := by omega
    rw [if_neg h, if_neg hi]

end VectorMemoryLemmas

/-- C11: for every `dim ≥ 1` and buffers of `dim` cells at the addresses `result`, `v1`,
`v2`, with the cells of `result` disjoint from those of `v1` and `v2`,
`vector_add_f(dim, result, v1, v2)` ends with `result[i] = v1[i] + v2[i]` for every
`i < dim`, index `0` included; the loop body runs on each index `i < dim` exactly once;
every cell outside `result[0 .. dim-1]` keeps its value, in particular the cells of
`result` at index `≥ dim` and the cells of `v1` and `v2`. -/
theorem vector_add_f_spec {F : Type} [CommRing F] (dim : Nat) (hdim : 1 ≤ dim)
    (result v1 v2 : Nat) (mem : Nat → F)
    (h1 : ∀ i k, i < dim → k < dim → result + i ≠ v1 + k)
    (h2 : ∀ i k, i < dim → k < dim → result + i ≠ v2 + k) :
    (∀ i, i < dim →
      (vector_add_f_mem dim result v1 v2 (mem, [])).1 (result + i)
        = mem (v1 + i) + mem (v2 + i)) ∧
    (vector_add_f_mem dim result v1 v2 (mem, [])).1 (result + 0)
      = mem (v1 + 0) + mem (v2 + 0) ∧
    ((vector_add_f_mem dim result v1 v2 (mem, [])).2.Nodup ∧
      ∀ i, i ∈ (vector_add_f_mem dim result v1 v2 (mem, [])).2 ↔ i < dim) ∧
    (∀ i, dim ≤ i →
      (vector_add_f_mem dim result v1 v2 (mem, [])).1 (result + i) = mem (result + i)) ∧
    (∀ a, (a < result ∨ result + dim ≤ a) →
      (vector_add_f_mem dim result v1 v2 (mem, [])).1 a = mem a) ∧
    (∀ i, i < dim →
      (vector_add_f_mem dim result v1 v2 (mem, [])).1 (v1 + i) = mem (v1 + i) ∧
      (vector_add_f_mem dim result v1 v2 (mem, [])).1 (v2 + i) = mem (v2 + i)) := by
  have hcell : ∀ i, i < dim →
      (vector_add_f_mem dim result v1 v2 (mem, [])).1 (result + i)
        = mem (v1 + i) + mem (v2 + i) := by
    intro i hi
    have h : result ≤ result + i ∧ result + i < result + dim := by omega
    rw [vector_add_f_mem_apply dim result v1 v2 mem [] h1 h2, if_pos h,
      Nat.add_sub_cancel_left]
  have hframe : ∀ a, ¬ (result ≤ a ∧ a < result + dim) →
      (vector_add_f_mem dim result v1 v2 (mem, [])).1 a = mem a := by
    intro a ha
    rw [vector_add_f_mem_apply dim result v1 v2 mem [] h1 h2, if_neg ha]
  refine ⟨hcell, hcell 0 (by omega), ?_, ?_, ?_, ?_⟩
  · rw [vector_add_f_mem_visited, List.nil_append]
    refine ⟨List.nodup_reverse.mpr (List.nodup_range dim), ?_⟩
    intro i
    rw [List.mem_reverse, List.mem_range]
  · intro i hi
    exact hframe _ (by omega)
  · intro a ha
    exact hframe _ (by omega)
  · intro i hi
    constructor
    · apply hframe
      intro h
      exact h1 (v1 + i - result) i (by omega) hi (by omega)
    · apply hframe
      intro h
      exact h2 (v2 + i - result) i (by omega) hi (by omega)

/-- Witness for C11 at `dim = 2`, `result` at address `0`, `v1` at `2`, `v2` at `4`, on
the memory `mem[a] = a`. -/
theorem vector_add_f_spec_witness :
    (1 ≤ 2 ∧ (∀ i k, i < 2 → k < 2 → 0 + i ≠ 2 + k) ∧ (∀ i k, i < 2 → k < 2 → 0 + i ≠ 4 + k)) ∧
    (vector_add_f_mem 2 0 2 4 ((fun a => (a : ℤ)), [])).1 (0 + 0)
      = (fun a => (a : ℤ)) (2 + 0) + (fun a => (a : ℤ)) (4 + 0) ∧
    (vector_add_f_mem 2 0 2 4 ((fun a => (a : ℤ)), [])).2 = [1, 0] :=
  ⟨⟨by decide, fun i k hi hk => by omega, fun i k hi hk => by omega⟩,
    (vector_add_f_spec 2 (by decide) 0 2 4 (fun a => (a : ℤ))
      (fun i k hi hk => by omega) (fun i k hi hk => by omega)).2.1,
    by decide⟩

/-- Cells of the result of `vector_subtract_inplace_f`. -/
theorem vector_subtract_inplace_f_apply {F : Type} [CommRing F] (dim : Nat)
    (result v1 : Nat → F) (i : Nat) :
    vector_subtract_inplace_f dim result v1 i
      = if i < dim then result i - v1 i else result i := by
  induction dim generalizing result with
  | zero => simp [vector_subtract_inplace_f]
  | succ n ih =>
    rw [vector_subtract_inplace_f, ih]
    by_cases h : i < n
    · have h2 : i ≠ n := by omega
      simp [h, Nat.lt_succ_of_lt h, Function.update_noteq h2]
    · by_cases h2 : i = n
      · subst h2; simp
      · have h3 : ¬ i < n + 1 := by omega
        simp [h, h3, Function.update_noteq h2]

/-- C12: `vector_subtract_inplace_f(dim, result, v1)` sets `result[i]` to
`(old result[i]) - v1[i]` for every `i < dim` (result minus `v1`), which is the cell
`vector_subtract_f(dim, out, old_result, v1)` writes to `out[i]`, whatever `out` held. -/
theorem vector_subtract_inplace_refines {F : Type} [CommRing F] (dim : Nat)
    (result v1 out : Nat → F) (i : Nat) (hi : i < dim) :
    vector_subtract_inplace_f dim result v1 i = result i - v1 i ∧
    vector_subtract_inplace_f dim result v1 i = vector_subtract_f dim out result v1 i := by
  rw [vector_subtract_inplace_f_apply, vector_subtract_f_apply, if_pos hi, if_pos hi]
  exact ⟨rfl, rfl⟩

/-- Witness for C12 at `dim = 2`, `result = [10, 20]`, `v1 = [1, 2]`, cell `0`: the
result is `10 - 1 = 9`, not `1 - 10`. -/
theorem vector_subtract_inplace_refines_witness :
    0 < 2 ∧
    vector_subtract_inplace_f 2 (fun k => if k = 0 then (10 : ℤ) else 20)
      (fun k => if k = 0 then 1 else 2) 0 = 9 ∧
    vector_subtract_inplace_f 2 (fun k => if k = 0 then (10 : ℤ) else 20)
        (fun k => if k = 0 then 1 else 2) 0
      = vector_subtract_f 2 (fun _ => 0) (fun k => if k = 0 then (10 : ℤ) else 20)
        (fun k => if k = 0 then 1 else 2) 0 :=
  ⟨by decide, by decide,
    (vector_subtract_inplace_refines 2 (fun k => if k = 0 then (10 : ℤ) else 20)
      (fun k => if k = 0 then 1 else 2) (fun _ => 0) 0 (by decide)).2⟩

/-- C19: in exact arithmetic the result `r` of `vector3_cross_f(r, v1, v2)` is orthogonal
to both inputs, and crossing two buffers that hold the same three values gives the zero
vector. -/
theorem vector3_cross_orthogonal {F : Type} [CommRing F] (res v1 v2 : Nat → F) :
    (vector3_cross_f res v1 v2 0 * v1 0 + vector3_cross_f res v1 v2 1 * v1 1
      + vector3_cross_f res v1 v2 2 * v1 2 = 0) ∧
    (vector3_cross_f res v1 v2 0 * v2 0 + vector3_cross_f res v1 v2 1 * v2 1
      + vector3_cross_f res v1 v2 2 * v2 2 = 0) ∧
    (vector3_cross_f res v1 v1 0 = 0 ∧ vector3_cross_f res v1 v1 1 = 0
      ∧ vector3_cross_f res v1 v1 2 = 0) := by
  refine ⟨?_, ?_, ?_, ?_, ?_⟩ <;> simp [vector3_cross_f, Function.update] <;> ring

/-- The inner loop of `matrix_multiply_f` is one left-to-right accumulation, started from
`t`, over `k, k + 1, ..., k + n - 1`; no law of `+` or `*` is used. -/
theorem matrix_multiply_dot_foldl {F : Type} [Zero F] [Add F] [Mul F] (A B : Nat → F)
    (AR BR i j n k : Nat) (t : F) :
    matrix_multiply_dot A B AR BR i j n k t
      = List.foldl (fun acc m => acc + A (i * AR + m) * B (m * BR + j)) t
          (List.range' k n) := by
  induction n generalizing k t with
  | zero => rfl
  | succ n ih =>
    rw [matrix_multiply_dot, ih, List.range'_succ, List.foldl_cons]

/-- Every cell `i * BR + j` with `i < AC` and `j < BR` of the output of
`matrix_multiply_f` holds the accumulator of the inner loop times `mul`; no law of `+` or
`*` is used. -/
theorem matrix_multiply_f_cell_dot {F : Type} [Zero F] [Add F] [Mul F] (C B A : Nat → F)
    (AR AC BR BC : Nat) (mul : F) (i j : Nat) (hi : i < AC) (hj : j < BR) :
    matrix_multiply_f C B A AR AC BR BC mul (i * BR + j)
      = matrix_multiply_dot A B AR BR i j AR 0 0 * mul := by
  rw [matrix_multiply_f, matrix_multiply_rows_apply]
  have h1 : (i + 1) * BR ≤ AC * BR := Nat.mul_le_mul_right BR hi
  have h2 : (i + 1) * BR = i * BR + BR := Nat.succ_mul i BR
  have h : 0 * BR ≤ i * BR + j ∧ i * BR + j < (0 + AC) * BR := by
    rw [Nat.zero_add]; omega
  rw [if_pos h]
  have hq : (i * BR + j) / BR = i := by
    rw [Nat.mul_comm, Nat.mul_add_div (by omega), Nat.div_eq_of_lt hj, Nat.add_zero]
  have hr : (i * BR + j) % BR = j := by
    rw [Nat.mul_comm, Nat.mul_add_mod, Nat.mod_eq_of_lt hj]
  rw [hq, hr]

/-- C17: for all sizes with `AR == BC`, and for any zero, addition and multiplication on
the cell values (no law assumed, so the order of the operations is part of the value),
`matrix_multiply_f` leaves in every cell `C[i*BR + j]`, `i < AC`, `j < BR`, the value
`(((0 + A[i*AR]*B[j]) + A[i*AR + 1]*B[BR + j]) + ...) * mul`: one accumulation from `0`
over `k = 0, 1, ..., AR-1` in increasing `k`, multiplied once by `mul` when finished;
where the multiplication commutes this is `mul * Σ_{k<AR} A[i*AR + k] * B[k*BR + j]` with
the sum accumulated in that order.  The cells of `C` from index `AC*BR` on keep their
value, and the result is the same for every value of `BC`. -/
theorem matrix_multiply_f_spec {F : Type} [Zero F] [Add F] [Mul F] (C B A : Nat → F)
    (AR AC BR BC : Nat) (mul : F) (hdim : AR = BC) :
    (∀ i j, i < AC → j < BR →
      matrix_multiply_f C B A AR AC BR BC mul (i * BR + j)
        = List.foldl (fun acc k => acc + A (i * AR + k) * B (k * BR + j)) 0
            (List.range AR) * mul) ∧
    ((∀ x y : F, x * y = y * x) → ∀ i j, i < AC → j < BR →
      matrix_multiply_f C B A AR AC BR BC mul (i * BR + j)
        = mul * List.foldl (fun acc k => acc + A (i * AR + k) * B (k * BR + j)) 0
            (List.range AR)) ∧
    (∀ idx, AC * BR ≤ idx → matrix_multiply_f C B A AR AC BR BC mul idx = C idx) ∧
    (∀ BC2, matrix_multiply_f C B A AR AC BR BC2 mul
      = matrix_multiply_f C B A AR AC BR BC mul) := by
  have _ := hdim
  have hcell : ∀ i j, i < AC → j < BR →
      matrix_multiply_f C B A AR AC BR BC mul (i * BR + j)
        = List.foldl (fun acc k => acc + A (i * AR + k) * B (k * BR + j)) 0
            (List.range AR) * mul := by
    intro i j hi hj
    rw [matrix_multiply_f_cell_dot C B A AR AC BR BC mul i j hi hj,
      matrix_multiply_dot_foldl, List.range_eq_range']
  refine ⟨hcell, ?_, ?_, ?_⟩
  · intro hcomm i j hi hj
    rw [hcell i j hi hj, hcomm]
  · intro idx hidx
    rw [matrix_multiply_f, matrix_multiply_rows_apply, if_neg]
    rw [Nat.zero_add]
    omega
  · intro BC2
    rfl

/-- Witness for C17 on symbolic values at `AR = BC = 2`, `AC = 1`, `BR = 3`, with
`A[k] = a_k` (the value `k`), `B[k] = b_k` (the value `10 + k`) and `mul = m` (the value
`100`): the cell `C[0]` is the expression `((0 + a_0 * b_0) + a_1 * b_3) * m`, and no
other bracketing, order or placement of `m`. -/
theorem matrix_multiply_f_spec_witness :
    (2 : Nat) = 2 ∧
    matrix_multiply_f (fun _ => FloatExpr.zero) (fun k => FloatExpr.val (10 + k))
        (fun k => FloatExpr.val k) 2 1 3 2 (FloatExpr.val 100) (0 * 3 + 0)
      = List.foldl
          (fun acc k => acc + (fun k => FloatExpr.val k) (0 * 2 + k)
            * (fun k => FloatExpr.val (10 + k)) (k * 3 + 0)) 0 (List.range 2)
        * FloatExpr.val 100 ∧
    matrix_multiply_f (fun _ => FloatExpr.zero) (fun k => FloatExpr.val (10 + k))
        (fun k => FloatExpr.val k) 2 1 3 2 (FloatExpr.val 100) (0 * 3 + 0)
      = FloatExpr.mul
          (FloatExpr.add
            (FloatExpr.add FloatExpr.zero (FloatExpr.mul (FloatExpr.val 0) (FloatExpr.val 10)))
            (FloatExpr.mul (FloatExpr.val 1) (FloatExpr.val 13)))
          (FloatExpr.val 100) :=
  ⟨rfl,
    (matrix_multiply_f_spec (fun _ => FloatExpr.zero) (fun k => FloatExpr.val (10 + k))
      (fun k => FloatExpr.val k) 2 1 3 2 (FloatExpr.val 100) rfl).1 0 0
      (by decide) (by decide),
    by decide⟩

/-- C20: `matrix_cholesky_decomp_scale_f` depends on `A` only through the cells
`i + j*dim` with `j ≤ i < dim`: for every `dim`, `mul`, backend and initial `L`, two
inputs that agree on those cells give the same buffer, cell for cell. -/
theorem cholesky_reads_lower_triangle {F : Type} [CommRing F] (fsqrt recip : F → F)
    (dim : Nat) (L A A2 : Nat → F) (mul : F)
    (hA : ∀ i j, i < dim → j ≤ i → A (i + j * dim) = A2 (i + j * dim)) :
    matrix_cholesky_decomp_scale_f fsqrt recip dim L A mul
      = matrix_cholesky_decomp_scale_f fsqrt recip dim L A2 mul := by
  funext idx
  by_cases h : ∃ i j, i < dim ∧ j ≤ i ∧ idx = i + j * dim
  · obtain ⟨i, j, hi, hj, rfl⟩ := h
    exact cholesky_recurrence_unique fsqrt recip dim A A2 mul _ _ hA
      (fun a b ha hb => cholesky_final_recurrence fsqrt recip dim L A mul a b ha hb)
      (fun a b ha hb => cholesky_final_recurrence fsqrt recip dim L A2 mul a b ha hb)
      i hi j hj
  · have hne : ∀ i j, i < dim → j ≤ i → idx ≠ i + j * dim :=
      fun i j hi hj heq => h ⟨i, j, hi, hj, heq⟩
    rw [cholesky_final_frame fsqrt recip dim L A mul idx hne,
      cholesky_final_frame fsqrt recip dim L A2 mul idx hne]

/-- Witness for C20 at `dim = 2`: `A = [4, 2, 2, 3]` and the asymmetric `[4, 2, 99, 3]`
differ only in cell `2 = 0 + 1*2`, which is not read. -/
theorem cholesky_reads_lower_triangle_witness :
    (∀ i j, i < 2 → j ≤ i →
      (example_A : Nat → ℝ) (i + j * 2)
        = (fun k => if k = 2 then (99 : ℝ) else example_A k) (i + j * 2)) ∧
    matrix_cholesky_decomp_scale_f Real.sqrt (fun x => 1 / x) 2 (fun _ => 0) example_A 1
      = matrix_cholesky_decomp_scale_f Real.sqrt (fun x => 1 / x) 2 (fun _ => 0)
          (fun k => if k = 2 then (99 : ℝ) else example_A k) 1 :=
  have h : ∀ i j, i < 2 → j ≤ i →
      (example_A : Nat → ℝ) (i + j * 2)
        = (fun k => if k = 2 then (99 : ℝ) else example_A k) (i + j * 2) := by
    intro i j hi hj
    have hne : i + j * 2 ≠ 2 := by omega
    simp [hne]
  ⟨h, cholesky_reads_lower_triangle Real.sqrt (fun x => 1 / x) 2 (fun _ => 0) example_A
    (fun k => if k = 2 then (99 : ℝ) else example_A k) 1 h⟩

/-- C13: on the iterative path `divide(a, b)` is exactly `+0.0` whenever `a == 0.0`, for
every `b` and whatever `_rcpdp` and the rounded operations are (the estimate is not
consulted); otherwise it is the product with `a` of the estimate `_rcpdp(b)` refined by
three steps `x = x * (2.0 - b * x)`, which is `recip(b) * a`. -/
theorem divide_spec (fmul fsub : Nat → Nat → Nat) (rsqrdp rcpdp : Nat → Nat) (a b : Nat) :
    (deq a 0 = true →
      (divide (ieee fmul fsub rsqrdp rcpdp) a b = 0 ∧
        ∀ (fmul2 fsub2 : Nat → Nat → Nat) (rsqrdp2 rcpdp2 : Nat → Nat),
          divide (ieee fmul2 fsub2 rsqrdp2 rcpdp2) a b = 0)) ∧
    (deq a 0 = false →
      (divide (ieee fmul fsub rsqrdp rcpdp) a b
          = fmul
              (fmul
                (fmul
                  (fmul (rcpdp b) (fsub 0x4000000000000000 (fmul b (rcpdp b))))
                  (fsub 0x4000000000000000
                    (fmul b (fmul (rcpdp b) (fsub 0x4000000000000000 (fmul b (rcpdp b)))))))
                (fsub 0x4000000000000000
                  (fmul b
                    (fmul
                      (fmul (rcpdp b) (fsub 0x4000000000000000 (fmul b (rcpdp b))))
                      (fsub 0x4000000000000000
                        (fmul b
                          (fmul (rcpdp b)
                            (fsub 0x4000000000000000 (fmul b (rcpdp b))))))))))
              a ∧
        divide (ieee fmul fsub rsqrdp rcpdp) a b
          = fmul (recip (ieee fmul fsub rsqrdp rcpdp) b) a)) := by
  constructor
  · intro h
    refine ⟨?_, ?_⟩
    · simp [divide, ieee, h]
    · intro fmul2 fsub2 rsqrdp2 rcpdp2
      simp [divide, ieee, h]
  · intro h
    refine ⟨?_, ?_⟩
    · simp [divide, ieee, h]
    · simp [divide, recip, ieee, h]

/-- Witness for C13: `divide(+0.0, +0.0) = +0.0` and `divide(-0.0, 1.0) = +0.0`, and
`divide(1.0, 1.0)` with hardware operations that all return the pattern of `1.0`. -/
theorem divide_spec_witness :
    (deq 0 0 = true ∧ deq 0x8000000000000000 0 = true ∧ deq 0x3FF0000000000000 0 = false) ∧
    divide (ieee (fun _ _ => 0x3FF0000000000000) (fun _ _ => 0x3FF0000000000000)
      (fun _ => 0x3FF0000000000000) (fun _ => 0x3FF0000000000000)) 0 0 = 0 ∧
    divide (ieee (fun _ _ => 0x3FF0000000000000) (fun _ _ => 0x3FF0000000000000)
      (fun _ => 0x3FF0000000000000) (fun _ => 0x3FF0000000000000))
        0x8000000000000000 0x3FF0000000000000 = 0 ∧
    divide (ieee (fun _ _ => 0x3FF0000000000000) (fun _ _ => 0x3FF0000000000000)
      (fun _ => 0x3FF0000000000000) (fun _ => 0x3FF0000000000000))
        0x3FF0000000000000 0x3FF0000000000000
      = (fun _ _ => 0x3FF0000000000000)
          (recip (ieee (fun _ _ => 0x3FF0000000000000) (fun _ _ => 0x3FF0000000000000)
            (fun _ => 0x3FF0000000000000) (fun _ => 0x3FF0000000000000)) 0x3FF0000000000000)
          0x3FF0000000000000 :=
  ⟨⟨by decide, by decide, by decide⟩,
    ((divide_spec _ _ _ _ 0 0).1 (by decide)).1,
    ((divide_spec _ _ _ _ 0x8000000000000000 0x3FF0000000000000).1 (by decide)).1,
    ((divide_spec _ _ _ _ 0x3FF0000000000000 0x3FF0000000000000).2 (by decide)).2⟩

/-! ## Iterative backend: convergence of the refinement steps in exact arithmetic -/

/-- C14: in exact arithmetic, for every `b ≠ 0` and every seed `x0 = _rcpdp(b)`, one step
`x -> x * (2 - b*x)` maps the residual `e = 1 - b*x` to `e^2`, so the value `r` returned
by `recip(b)` after its three steps satisfies `1 - b*r = (1 - b*x0)^8`; hence a seed with
`|1 - b*x0| ≤ 2^-12` gives `|1 - b*r| ≤ 2^-96`, which is below `2^-53`. -/
theorem recip_quadratic {K : Type} [LinearOrderedField K] (rsqrdp rcpdp : K → K)
    (lltod : Nat → K) (hi lo : K → Nat) (itod : Nat → Nat → K) (b : K) (hb : b ≠ 0) :
    (∀ x : K,
      1 - b * (exactOps rsqrdp rcpdp lltod hi lo itod).mul x
          ((exactOps rsqrdp rcpdp lltod hi lo itod).sub
            (exactOps rsqrdp rcpdp lltod hi lo itod).lit_2
            ((exactOps rsqrdp rcpdp lltod hi lo itod).mul b x))
        = (1 - b * x) ^ 2) ∧
    1 - b * recip (exactOps rsqrdp rcpdp lltod hi lo itod) b = (1 - b * rcpdp b) ^ 8 ∧
    (|1 - b * rcpdp b| ≤ 1 / 2 ^ 12 →
      |1 - b * recip (exactOps rsqrdp rcpdp lltod hi lo itod) b| ≤ 1 / 2 ^ 96 ∧
      (1 : K) / 2 ^ 96 < 1 / 2 ^ 53) := by
  have _ := hb
  have h8 : 1 - b * recip (exactOps rsqrdp rcpdp lltod hi lo itod) b
      = (1 - b * rcpdp b) ^ 8 := by
    simp only [recip, exactOps]
    ring
  refine ⟨?_, h8, ?_⟩
  · intro x
    simp only [exactOps]
    ring
  · intro hseed
    constructor
    · rw [h8, abs_pow]
      calc |1 - b * rcpdp b| ^ 8 ≤ (1 / 2 ^ 12 : K) ^ 8 :=
            pow_le_pow_left₀ (abs_nonneg _) hseed 8
        _ = 1 / 2 ^ 96 := by norm_num
    · norm_num

/-- Witness for C14 over `ℚ` at `b = 3` with the seed `x0 = 1365/4096`, whose residual is
exactly `2^-12`. -/
theorem recip_quadratic_witness :
    ((3 : ℚ) ≠ 0 ∧ |1 - (3 : ℚ) * (fun _ => (1365 / 4096 : ℚ)) 3| ≤ 1 / 2 ^ 12) ∧
    |1 - (3 : ℚ) * recip (exactOps (fun _ => 0) (fun _ => (1365 / 4096 : ℚ)) (fun _ => 0)
        (fun _ => 0) (fun _ => 0) (fun _ _ => 0)) 3| ≤ 1 / 2 ^ 96 :=
  have hseed : |1 - (3 : ℚ) * (fun _ => (1365 / 4096 : ℚ)) 3| ≤ 1 / 2 ^ 12 := by
    norm_num [abs_le]
  ⟨⟨by norm_num, hseed⟩,
    ((recip_quadratic (fun _ => 0) (fun _ => (1365 / 4096 : ℚ)) (fun _ => 0)
      (fun _ => 0) (fun _ => 0) (fun _ _ => 0) 3 (by norm_num)).2.2 hseed).1⟩

/-- One step of the inverse-square-root refinement, on the residual: if `s*s = a` and
`x*s = 1 - d` then `x * (3/2 - a*(1/2)*x*x) * s = 1 - d^2 * (3 - d) / 2`. -/
theorem rsqrt_step_residual (a s x d : ℝ) (hs : s * s = a) (hx : x * s = 1 - d) :
    x * (3 / 2 - a * (1 / 2) * x * x) * s = 1 - d ^ 2 * (3 - d) / 2 := by
  subst hs
  linear_combination (3 / 2 - ((x * s) ^ 2 + (x * s) * (1 - d) + (1 - d) ^ 2) / 2) * hx

/-- The new residual `d^2 * (3 - d) / 2` is nonnegative and at most `2 * e^2` when
`|d| ≤ e ≤ 1`. -/
theorem rsqrt_residual_bound (d e : ℝ) (hd : |d| ≤ e) (he : e ≤ 1) :
    0 ≤ d ^ 2 * (3 - d) / 2 ∧ d ^ 2 * (3 - d) / 2 ≤ 2 * e ^ 2 := by
  obtain ⟨h1, h2⟩ := abs_le.mp hd
  have hsq : d ^ 2 ≤ e ^ 2 := by nlinarith
  have hd0 : 0 ≤ d ^ 2 := sq_nonneg d
  constructor
  · have : 0 ≤ d ^ 2 * (3 - d) := mul_nonneg hd0 (by linarith)
    linarith
  · nlinarith

/-- C18: in exact real arithmetic, for every `a > 0` and every `x` with
`x * sqrt(a) = 1 - d`, one step `x -> x * (1.5 - 0.5*a*x*x)` yields `x'` with
`x' * sqrt(a) = 1 - d^2 * (3 - d) / 2`; consequently a seed `_rsqrdp(a)` with
`|d| ≤ 2^-8` gives, after the three steps of `sqrt_inv`, a result `r` with
`0 ≤ 1 - r * sqrt(a) ≤ 2^-57`. -/
theorem sqrt_inv_quadratic (rsqrdp rcpdp : ℝ → ℝ) (lltod : Nat → ℝ) (hi lo : ℝ → Nat)
    (itod : Nat → Nat → ℝ) (a : ℝ) (ha : 0 < a) :
    (∀ x d : ℝ, x * Real.sqrt a = 1 - d →
      (exactOps rsqrdp rcpdp lltod hi lo itod).mul x
          ((exactOps rsqrdp rcpdp lltod hi lo itod).sub
            (exactOps rsqrdp rcpdp lltod hi lo itod).lit_1_5
            ((exactOps rsqrdp rcpdp lltod hi lo itod).mul
              ((exactOps rsqrdp rcpdp lltod hi lo itod).mul
                ((exactOps rsqrdp rcpdp lltod hi lo itod).mul a
                  (exactOps rsqrdp rcpdp lltod hi lo itod).lit_0_5) x) x))
          * Real.sqrt a
        = 1 - d ^ 2 * (3 - d) / 2) ∧
    (|1 - rsqrdp a * Real.sqrt a| ≤ 1 / 2 ^ 8 →
      0 ≤ 1 - sqrt_inv (exactOps rsqrdp rcpdp lltod hi lo itod) a * Real.sqrt a ∧
      1 - sqrt_inv (exactOps rsqrdp rcpdp lltod hi lo itod) a * Real.sqrt a ≤ 1 / 2 ^ 57) := by
  have hs : Real.sqrt a * Real.sqrt a = a := Real.mul_self_sqrt (le_of_lt ha)
  have hstep : ∀ x d : ℝ, x * Real.sqrt a = 1 - d →
      x * (3 / 2 - a * (1 / 2) * x * x) * Real.sqrt a = 1 - d ^ 2 * (3 - d) / 2 :=
    fun x d hx => rsqrt_step_residual a (Real.sqrt a) x d hs hx
  refine ⟨fun x d hx => hstep x d hx, ?_⟩
  intro hseed
  have hbranch : ¬ ((exactOps rsqrdp rcpdp lltod hi lo itod).lt a
      (exactOps rsqrdp rcpdp lltod hi lo itod).lit_0 = true) := by
    simp [exactOps, le_of_lt ha]
  have hval : sqrt_inv (exactOps rsqrdp rcpdp lltod hi lo itod) a
      = (rsqrdp a * (3 / 2 - a * (1 / 2) * rsqrdp a * rsqrdp a))
          * (3 / 2 - a * (1 / 2) * (rsqrdp a * (3 / 2 - a * (1 / 2) * rsqrdp a * rsqrdp a))
              * (rsqrdp a * (3 / 2 - a * (1 / 2) * rsqrdp a * rsqrdp a)))
          * (3 / 2 - a * (1 / 2)
              * ((rsqrdp a * (3 / 2 - a * (1 / 2) * rsqrdp a * rsqrdp a))
                * (3 / 2 - a * (1 / 2)
                    * (rsqrdp a * (3 / 2 - a * (1 / 2) * rsqrdp a * rsqrdp a))
                    * (rsqrdp a * (3 / 2 - a * (1 / 2) * rsqrdp a * rsqrdp a))))
              * ((rsqrdp a * (3 / 2 - a * (1 / 2) * rsqrdp a * rsqrdp a))
                * (3 / 2 - a * (1 / 2)
                    * (rsqrdp a * (3 / 2 - a * (1 / 2) * rsqrdp a * rsqrdp a))
                    * (rsqrdp a * (3 / 2 - a * (1 / 2) * rsqrdp a * rsqrdp a))))) := by
    rw [sqrt_inv, if_neg hbranch]
    rfl
  -- the residuals after the seed and after each of the three steps
  generalize hd0 : 1 - rsqrdp a * Real.sqrt a = d0 at hseed
  have hx0 : rsqrdp a * Real.sqrt a = 1 - d0 := by rw [← hd0]; ring
  have hx1 := hstep _ _ hx0
  have hx2 := hstep _ _ hx1
  have hx3 := hstep _ _ hx2
  rw [hval, hx3]
  obtain ⟨p1, q1⟩ := rsqrt_residual_bound d0 (1 / 2 ^ 8) hseed (by norm_num)
  have q1b : d0 ^ 2 * (3 - d0) / 2 ≤ 1 / 2 ^ 15 := by
    calc d0 ^ 2 * (3 - d0) / 2 ≤ 2 * (1 / 2 ^ 8) ^ 2 := q1
      _ = 1 / 2 ^ 15 := by norm_num
  obtain ⟨p2, q2⟩ := rsqrt_residual_bound (d0 ^ 2 * (3 - d0) / 2) (1 / 2 ^ 15)
    (abs_le.mpr ⟨by linarith, q1b⟩) (by norm_num)
  have q2b : (d0 ^ 2 * (3 - d0) / 2) ^ 2 * (3 - d0 ^ 2 * (3 - d0) / 2) / 2 ≤ 1 / 2 ^ 29 := by
    calc (d0 ^ 2 * (3 - d0) / 2) ^ 2 * (3 - d0 ^ 2 * (3 - d0) / 2) / 2
          ≤ 2 * (1 / 2 ^ 15) ^ 2 := q2
      _ = 1 / 2 ^ 29 := by norm_num
  obtain ⟨p3, q3⟩ := rsqrt_residual_bound
    ((d0 ^ 2 * (3 - d0) / 2) ^ 2 * (3 - d0 ^ 2 * (3 - d0) / 2) / 2) (1 / 2 ^ 29)
    (abs_le.mpr ⟨by linarith, q2b⟩) (by norm_num)
  constructor
  · linarith
  · have e : (2 : ℝ) * (1 / 2 ^ 29) ^ 2 = 1 / 2 ^ 57 := by norm_num
    linarith

/-- Witness for C18 at `a = 4` with the exact seed `_rsqrdp(4) = 1/2` (residual `0`). -/
theorem sqrt_inv_quadratic_witness :
    ((0 : ℝ) < 4 ∧ |1 - (fun _ => (1 / 2 : ℝ)) (4 : ℝ) * Real.sqrt 4| ≤ 1 / 2 ^ 8) ∧
    0 ≤ 1 - sqrt_inv (exactOps (fun _ => (1 / 2 : ℝ)) (fun _ => 0) (fun _ => 0)
        (fun _ => 0) (fun _ => 0) (fun _ _ => 0)) 4 * Real.sqrt 4 ∧
    1 - sqrt_inv (exactOps (fun _ => (1 / 2 : ℝ)) (fun _ => 0) (fun _ => 0)
        (fun _ => 0) (fun _ => 0) (fun _ _ => 0)) 4 * Real.sqrt 4 ≤ 1 / 2 ^ 57 :=
  have hseed : |1 - (fun _ => (1 / 2 : ℝ)) (4 : ℝ) * Real.sqrt 4| ≤ 1 / 2 ^ 8 := by
    rw [sqrt_four]
    norm_num
  ⟨⟨by norm_num, hseed⟩,
    (sqrt_inv_quadratic (fun _ => (1 / 2 : ℝ)) (fun _ => 0) (fun _ => 0)
      (fun _ => 0) (fun _ => 0) (fun _ _ => 0) 4 (by norm_num)).2 hseed⟩

/-! ## Cholesky: stores and loads -/

section CholeskyTraceLemmas

variable {F : Type} [CommRing F]

/-- Erasing the trace of the innermost loop gives `cholesky_sum`. -/
theorem cholesky_sum_traced_fst (L : Nat → F) (W : List Nat) (dim i j n kn : Nat) (s : F)
    (ok : Bool) :
    (cholesky_sum_traced L W dim i j n kn (s, ok)).1 = cholesky_sum L dim i j n kn s := by
  induction n generalizing kn s ok with
  | zero => rfl
  | succ n ih =>
    rw [cholesky_sum_traced, cholesky_sum]
    by_cases h : kn < j * dim
    · rw [if_pos h, if_pos h, ih]
    · rw [if_neg h, if_neg h]

/-- The innermost loop only loads the cells `(i, k)` and `(j, k)` with `k < j`. -/
theorem cholesky_sum_traced_snd (L : Nat → F) (W : List Nat) (dim i j : Nat)
    (hW : ∀ k, k < j → i + k * dim ∈ W ∧ j + k * dim ∈ W) (n k0 : Nat) (s : F) :
    (cholesky_sum_traced L W dim i j n (k0 * dim) (s, true)).2 = true := by
  induction n generalizing k0 s with
  | zero => rfl
  | succ n ih =>
    rw [cholesky_sum_traced]
    by_cases h : k0 * dim < j * dim
    · have hk : k0 < j := Nat.lt_of_mul_lt_mul_right h
      have e : k0 * dim + dim = (k0 + 1) * dim := by ring
      have h1 : decide (i + k0 * dim ∈ W) = true := decide_eq_true (hW k0 hk).1
      have h2 : decide (j + k0 * dim ∈ W) = true := decide_eq_true (hW k0 hk).2
      rw [if_pos h, h1, h2, e]
      exact ih (k0 + 1) _
    · rw [if_neg h]

/-- The cells stored to once row `i` is complete are those stored to before row `i + 1`. -/
theorem cholesky_written_row_end (dim i idx : Nat) :
    cholesky_written dim i (i + 1) idx ↔ cholesky_written dim (i + 1) 0 idx := by
  constructor
  · rintro ⟨r, c, h1, h2, h3, h4⟩
    exact ⟨r, c, h1, h2, h3, by omega⟩
  · rintro ⟨r, c, h1, h2, h3, h4⟩
    exact ⟨r, c, h1, h2, h3, by omega⟩

/-- Storing to the cell `(i, j)` extends the set of cells stored to, and the cell was not
in it. -/
theorem cholesky_written_step (dim i j : Nat) (hi : i < dim) (hj : j ≤ i) (W : List Nat)
    (hnd : W.Nodup) (hW : ∀ idx, idx ∈ W ↔ cholesky_written dim i j idx) :
    (W ++ [i + j * dim]).Nodup ∧
    (∀ idx, idx ∈ W ++ [i + j * dim] ↔ cholesky_written dim i (j + 1) idx) := by
  have hnew : i + j * dim ∉ W := by
    intro hmem
    obtain ⟨r, c, h1, h2, h3, h4⟩ := (hW _).mp hmem
    have h5 := (cell_index_inj hi h2 h3).1
    have h6 := (cell_index_inj hi h2 h3).2
    omega
  constructor
  · rw [List.nodup_append]
    refine ⟨hnd, List.nodup_singleton _, ?_⟩
    intro a ha hb
    rw [List.mem_singleton] at hb
    exact hnew (hb ▸ ha)
  · intro idx
    rw [List.mem_append, List.mem_singleton, hW]
    constructor
    · rintro (⟨r, c, h1, h2, h3, h4⟩ | h)
      · exact ⟨r, c, h1, h2, h3, by omega⟩
      · exact ⟨i, j, hj, hi, h, Or.inr ⟨rfl, by omega⟩⟩
    · rintro ⟨r, c, h1, h2, h3, h4⟩
      by_cases hc : r = i ∧ c = j
      · right
        rw [h3, hc.1, hc.2]
      · left
        exact ⟨r, c, h1, h2, h3, by omega⟩

/-- Row loop with its trace: the buffer is that of `cholesky_row`, every load was from a
cell stored to earlier, and the cells `(i, j0) .. (i, i)` are added to the list of
stores, each once. -/
theorem cholesky_row_traced_spec (fsqrt recip : F → F) (dim : Nat) (A : Nat → F) (mul : F)
    (i : Nat) (hi : i < dim) (n j0 : Nat) (hn : j0 + n = i + 1) (L : Nat → F)
    (W : List Nat) (hnd : W.Nodup)
    (hW : ∀ idx, idx ∈ W ↔ cholesky_written dim i j0 idx) :
    (cholesky_row_traced fsqrt recip dim A mul i (i * dim) n j0 (j0 * dim) (L, W, true)).1
      = cholesky_row fsqrt recip dim A mul i (i * dim) n j0 (j0 * dim) L ∧
    (cholesky_row_traced fsqrt recip dim A mul i (i * dim) n j0 (j0 * dim)
      (L, W, true)).2.1.Nodup ∧
    (∀ idx,
      idx ∈ (cholesky_row_traced fsqrt recip dim A mul i (i * dim) n j0 (j0 * dim)
          (L, W, true)).2.1
        ↔ cholesky_written dim (i + 1) 0 idx) ∧
    (cholesky_row_traced fsqrt recip dim A mul i (i * dim) n j0 (j0 * dim)
      (L, W, true)).2.2 = true := by
  induction n generalizing j0 L W with
  | zero =>
    have hj : j0 = i + 1 := by omega
    subst hj
    refine ⟨rfl, hnd, ?_, rfl⟩
    intro idx
    rw [← cholesky_written_row_end]
    exact hW idx
  | succ n ih =>
    have hj0 : j0 ≤ i := by omega
    have e : j0 * dim + dim = (j0 + 1) * dim := by ring
    -- the loads of this iteration
    have hrow : ∀ k, k < j0 → i + k * dim ∈ W ∧ j0 + k * dim ∈ W := by
      intro k hk
      constructor
      · exact (hW _).mpr ⟨i, k, by omega, hi, rfl, Or.inr ⟨rfl, hk⟩⟩
      · exact (hW _).mpr ⟨j0, k, by omega, by omega, rfl, by omega⟩
    have hsum2 : (cholesky_sum_traced L W dim i j0 j0 0 (0, true)).2 = true := by
      have h := cholesky_sum_traced_snd L W dim i j0 hrow j0 0 0
      rw [Nat.zero_mul] at h
      exact h
    have hok : (if i = j0 then (cholesky_sum_traced L W dim i j0 j0 0 (0, true)).2
        else (cholesky_sum_traced L W dim i j0 j0 0 (0, true)).2
          && decide (j0 + j0 * dim ∈ W)) = true := by
      rw [hsum2]
      by_cases hij : i = j0
      · rw [if_pos hij]
      · rw [if_neg hij, Bool.true_and]
        exact decide_eq_true
          ((hW _).mpr ⟨j0, j0, le_refl _, by omega, rfl, Or.inl (by omega)⟩)
    obtain ⟨hnd2, hW2⟩ := cholesky_written_step dim i j0 hi hj0 W hnd hW
    rw [cholesky_row_traced, cholesky_row, e]
    simp only [hok, cholesky_sum_traced_fst]
    exact ih (j0 + 1) (by omega) _ _ hnd2 hW2

/-- Outer loop with its trace: the buffer is that of `cholesky_rows`, every load was from
a cell stored to earlier, and the lower-triangle cells of the rows `i0 ≤ i < dim` are
added to the list of stores, each once. -/
theorem cholesky_rows_traced_spec (fsqrt recip : F → F) (dim : Nat) (A : Nat → F) (mul : F)
    (n i0 : Nat) (hn : i0 + n = dim) (L : Nat → F) (W : List Nat) (hnd : W.Nodup)
    (hW : ∀ idx, idx ∈ W ↔ cholesky_written dim i0 0 idx) :
    (cholesky_rows_traced fsqrt recip dim A mul n i0 (i0 * dim) (L, W, true)).1
      = cholesky_rows fsqrt recip dim A mul n i0 (i0 * dim) L ∧
    (cholesky_rows_traced fsqrt recip dim A mul n i0 (i0 * dim) (L, W, true)).2.1.Nodup ∧
    (∀ idx,
      idx ∈ (cholesky_rows_traced fsqrt recip dim A mul n i0 (i0 * dim) (L, W, true)).2.1
        ↔ cholesky_written dim dim 0 idx) ∧
    (cholesky_rows_traced fsqrt recip dim A mul n i0 (i0 * dim) (L, W, true)).2.2 = true := by
  induction n generalizing i0 L W with
  | zero =>
    have hi : i0 = dim := by omega
    subst hi
    exact ⟨rfl, hnd, hW, rfl⟩
  | succ n ih =>
    have hi0 : i0 < dim := by omega
    have e : i0 * dim + dim = (i0 + 1) * dim := by ring
    have hok : (if i0 = 0 then true else true && decide (0 ∈ W)) = true := by
      by_cases hz : i0 = 0
      · rw [if_pos hz]
      · rw [if_neg hz, Bool.true_and]
        exact decide_eq_true
          ((hW _).mpr ⟨0, 0, le_refl _, by omega, by rw [Nat.zero_mul], Or.inl (by omega)⟩)
    have hstep := cholesky_written_step dim i0 0 hi0 (Nat.zero_le _) W hnd hW
    rw [Nat.zero_mul] at hstep
    obtain ⟨hnd1, hW1⟩ := hstep
    rw [cholesky_rows_traced, cholesky_rows, e, hok]
    generalize Function.update L (i0 + 0)
      (if i0 = 0 then fsqrt (A (i0 + i0 * dim) * mul) else recip (L 0) * (A i0 * mul)) = L1
    obtain ⟨r1, r2, r3, r4⟩ := cholesky_row_traced_spec fsqrt recip dim A mul i0 hi0 i0 1
      (by omega) L1 (W ++ [i0 + 0]) hnd1 hW1
    rw [Nat.one_mul] at r1 r2 r3 r4
    generalize cholesky_row_traced fsqrt recip dim A mul i0 (i0 * dim) i0 1 dim
      (L1, W ++ [i0 + 0], true) = st at r1 r2 r3 r4
    obtain ⟨L2, W2, ok2⟩ := st
    simp only at r1 r2 r3 r4
    subst r4
    rw [← r1]
    exact ih (i0 + 1) (by omega) L2 W2 r2 r3

/-- The trace of `matrix_cholesky_decomp_scale_f`: erasing it gives the routine, every
load from `L` was from a cell stored to earlier in the call, no cell is stored to
twice, and the cells stored to are the cells `i + j*dim` with `j ≤ i < dim`. -/
theorem cholesky_traced_spec (fsqrt recip : F → F) (dim : Nat) (L A : Nat → F) (mul : F) :
    (matrix_cholesky_decomp_scale_f_traced fsqrt recip dim L A mul).1
      = matrix_cholesky_decomp_scale_f fsqrt recip dim L A mul ∧
    (matrix_cholesky_decomp_scale_f_traced fsqrt recip dim L A mul).2.2 = true ∧
    (matrix_cholesky_decomp_scale_f_traced fsqrt recip dim L A mul).2.1.Nodup ∧
    (∀ idx, idx ∈ (matrix_cholesky_decomp_scale_f_traced fsqrt recip dim L A mul).2.1
      ↔ ∃ i j, j ≤ i ∧ i < dim ∧ idx = i + j * dim) := by
  have h := cholesky_rows_traced_spec fsqrt recip dim A mul dim 0 (by omega) L []
    List.nodup_nil (by
      intro idx
      constructor
      · intro hmem
        exact absurd hmem (List.not_mem_nil idx)
      · rintro ⟨r, c, h1, h2, h3, h4⟩
        omega)
  rw [Nat.zero_mul] at h
  obtain ⟨h1, h2, h3, h4⟩ := h
  refine ⟨h1, h4, h2, ?_⟩
  intro idx
  rw [matrix_cholesky_decomp_scale_f_traced, h3]
  constructor
  · rintro ⟨r, c, a1, a2, a3, _⟩
    exact ⟨r, c, a1, a2, a3⟩
  · rintro ⟨r, c, a1, a2, a3⟩
    exact ⟨r, c, a1, a2, a3, Or.inl a2⟩

end CholeskyTraceLemmas

/-- C15: for every `dim ≥ 1`, `mul` and symmetric `A` (row-major, not assumed positive
definite), the entries `L[i][j]` = cell `i + j*dim` left by
`matrix_cholesky_decomp_scale_f` satisfy the Cholesky-Banachiewicz recurrence:
`L[i][i] = fsqrt(A[i][i]*mul - Σ_{k<i} L[i][k]^2)` for `i < dim` and
`L[i][j] = recip(L[j][j]) * (A[i][j]*mul - Σ_{k<j} L[i][k]*L[j][k])` for `j < i`.
In the traced run of the routine (whose buffer is the routine's), every load from `L`
is from a cell stored to earlier in the call, no cell is stored to twice, and the cells
stored to are exactly the cells `i + j*dim`, `j ≤ i < dim`. -/
theorem cholesky_recurrence_spec {F : Type} [CommRing F] (fsqrt recip : F → F) (dim : Nat)
    (hdim : 1 ≤ dim) (L A : Nat → F) (mul : F)
    (hsym : ∀ i j, i < dim → j < dim → A (i * dim + j) = A (j * dim + i)) :
    (∀ i, i < dim →
      matrix_cholesky_decomp_scale_f fsqrt recip dim L A mul (i + i * dim)
        = fsqrt (A (i * dim + i) * mul
            - ∑ k in Finset.range i,
                matrix_cholesky_decomp_scale_f fsqrt recip dim L A mul (i + k * dim) ^ 2)) ∧
    (∀ i j, i < dim → j < i →
      matrix_cholesky_decomp_scale_f fsqrt recip dim L A mul (i + j * dim)
        = recip (matrix_cholesky_decomp_scale_f fsqrt recip dim L A mul (j + j * dim))
          * (A (i * dim + j) * mul
            - ∑ k in Finset.range j,
                matrix_cholesky_decomp_scale_f fsqrt recip dim L A mul (i + k * dim)
                  * matrix_cholesky_decomp_scale_f fsqrt recip dim L A mul (j + k * dim))) ∧
    (matrix_cholesky_decomp_scale_f_traced fsqrt recip dim L A mul).1
      = matrix_cholesky_decomp_scale_f fsqrt recip dim L A mul ∧
    (matrix_cholesky_decomp_scale_f_traced fsqrt recip dim L A mul).2.2 = true ∧
    (matrix_cholesky_decomp_scale_f_traced fsqrt recip dim L A mul).2.1.Nodup ∧
    (∀ idx, idx ∈ (matrix_cholesky_decomp_scale_f_traced fsqrt recip dim L A mul).2.1
      ↔ ∃ i j, j ≤ i ∧ i < dim ∧ idx = i + j * dim) := by
  have _ := hdim
  refine ⟨?_, ?_, cholesky_traced_spec fsqrt recip dim L A mul⟩
  · intro i hi
    have h := cholesky_final_recurrence fsqrt recip dim L A mul i i hi (le_refl i)
    have eA : A (i + i * dim) = A (i * dim + i) := by rw [Nat.add_comm]
    rw [cholesky_recurrence, if_pos rfl, eA] at h
    simp only [pow_two]
    exact h
  · intro i j hi hj
    have h := cholesky_final_recurrence fsqrt recip dim L A mul i j hi (le_of_lt hj)
    have eA : A (i + j * dim) = A (i * dim + j) := by
      rw [Nat.add_comm]
      exact (hsym i j hi (by omega)).symm
    rw [cholesky_recurrence, if_neg (by omega), eA] at h
    exact h

/-- Witness for C15 at `dim = 2` on the symmetric `A = [4, 2, 2, 3]`, `mul = 1`, exact
backend: the list of stores has no repetition. -/
theorem cholesky_recurrence_spec_witness :
    (1 ≤ 2 ∧ ∀ i j, i < 2 → j < 2 →
      (example_A : Nat → ℝ) (i * 2 + j) = example_A (j * 2 + i)) ∧
    (matrix_cholesky_decomp_scale_f_traced Real.sqrt (fun x => 1 / x) 2 (fun _ => 0)
      (example_A : Nat → ℝ) 1).2.1.Nodup :=
  have hsym : ∀ i j, i < 2 → j < 2 →
      (example_A : Nat → ℝ) (i * 2 + j) = example_A (j * 2 + i) := by
    intro i j hi hj
    interval_cases i <;> interval_cases j <;> simp [example_A]
  ⟨⟨by decide, hsym⟩,
    (cholesky_recurrence_spec Real.sqrt (fun x => 1 / x) 2 (by decide) (fun _ => 0)
      (example_A : Nat → ℝ) 1 hsym).2.2.2.2.1⟩

/-- The buffer after the call on the indefinite `dim = 2`, `A = [1, 2, 2, 1]`, `mul = 1`
with the exact backend: `L[0][0] = 1`, `L[1][0] = 2` (cell `1`), `L[1][1] = 0` (cell `3`). -/
theorem cholesky_indefinite_example_cells (L : Nat → ℝ) :
    matrix_cholesky_decomp_scale_f Real.sqrt (fun x => 1 / x) 2 L
      (fun k => if k = 0 ∨ k = 3 then 1 else 2) 1 0 = 1 ∧
    matrix_cholesky_decomp_scale_f Real.sqrt (fun x => 1 / x) 2 L
      (fun k => if k = 0 ∨ k = 3 then 1 else 2) 1 1 = 2 ∧
    matrix_cholesky_decomp_scale_f Real.sqrt (fun x => 1 / x) 2 L
      (fun k => if k = 0 ∨ k = 3 then 1 else 2) 1 3 = 0 := by
  have h : Real.sqrt (1 - 2 * 2) = 0 := Real.sqrt_eq_zero_of_nonpos (by norm_num)
  simp [matrix_cholesky_decomp_scale_f, cholesky_rows, cholesky_row, cholesky_sum,
    Function.update, h]

/-- C16: with a clamping square root (`fsqrt(x) = 0` for every `x ≤ 0`), for every `dim`,
`A`, `mul` and `recip`, whenever the diagonal radicand
`A[i][i]*mul - Σ_{k<i} L[i][k]^2` is `≤ 0` the routine stores exactly `0` as `L[i][i]`,
and every entry `(i, j)`, `j ≤ i < dim`, those after a zero pivot included, is still
the value of the recurrence. -/
theorem cholesky_degenerate_pivot {K : Type} [LinearOrderedField K] (fsqrt recip : K → K)
    (hclamp : ∀ x, x ≤ 0 → fsqrt x = 0) (dim : Nat) (L A : Nat → K) (mul : K) :
    (∀ i, i < dim →
      A (i + i * dim) * mul
          - ∑ k in Finset.range i,
              matrix_cholesky_decomp_scale_f fsqrt recip dim L A mul (i + k * dim) ^ 2 ≤ 0 →
      matrix_cholesky_decomp_scale_f fsqrt recip dim L A mul (i + i * dim) = 0) ∧
    (∀ i j, i < dim → j ≤ i →
      matrix_cholesky_decomp_scale_f fsqrt recip dim L A mul (i + j * dim)
        = cholesky_recurrence fsqrt recip dim A mul
            (matrix_cholesky_decomp_scale_f fsqrt recip dim L A mul) i j) := by
  refine ⟨?_, fun i j hi hj => cholesky_final_recurrence fsqrt recip dim L A mul i j hi hj⟩
  intro i hi hrad
  have h := cholesky_final_recurrence fsqrt recip dim L A mul i i hi (le_refl i)
  rw [cholesky_recurrence, if_pos rfl] at h
  simp only [pow_two] at hrad
  rw [h]
  exact hclamp _ hrad

/-- Witness for C16 on the claim's example `dim = 2`, `A = [1, 2, 2, 1]`, `mul = 1`, with
the real square root (which is `0` on `x ≤ 0`) and `recip(x) = 1/x`: the radicand of
`L[1][1]` is `1 - 2^2 ≤ 0` and the buffer ends with `L[0][0] = 1`, `L[1][0] = 2`,
`L[1][1] = 0`. -/
theorem cholesky_degenerate_pivot_witness :
    ((∀ x : ℝ, x ≤ 0 → Real.sqrt x = 0) ∧ 1 < 2 ∧
      (fun k => if k = 0 ∨ k = 3 then (1 : ℝ) else 2) (1 + 1 * 2) * 1
          - ∑ k in Finset.range 1,
              matrix_cholesky_decomp_scale_f Real.sqrt (fun x => 1 / x) 2 (fun _ => 7)
                (fun k => if k = 0 ∨ k = 3 then 1 else 2) 1 (1 + k * 2) ^ 2 ≤ 0) ∧
    matrix_cholesky_decomp_scale_f Real.sqrt (fun x => 1 / x) 2 (fun _ => 7)
      (fun k => if k = 0 ∨ k = 3 then 1 else 2) 1 0 = 1 ∧
    matrix_cholesky_decomp_scale_f Real.sqrt (fun x => 1 / x) 2 (fun _ => 7)
      (fun k => if k = 0 ∨ k = 3 then 1 else 2) 1 1 = 2 ∧
    matrix_cholesky_decomp_scale_f Real.sqrt (fun x => 1 / x) 2 (fun _ => 7)
      (fun k => if k = 0 ∨ k = 3 then 1 else 2) 1 (1 + 1 * 2) = 0 :=
  have hrad : (fun k => if k = 0 ∨ k = 3 then (1 : ℝ) else 2) (1 + 1 * 2) * 1
      - ∑ k in Finset.range 1,
          matrix_cholesky_decomp_scale_f Real.sqrt (fun x => 1 / x) 2 (fun _ => 7)
            (fun k => if k = 0 ∨ k = 3 then 1 else 2) 1 (1 + k * 2) ^ 2 ≤ 0 := by
    rw [Finset.sum_range_one, Nat.zero_mul, Nat.add_zero,
      (cholesky_indefinite_example_cells (fun _ => 7)).2.1]
    norm_num
  ⟨⟨fun x hx => Real.sqrt_eq_zero_of_nonpos hx, by decide, hrad⟩,
    (cholesky_indefinite_example_cells (fun _ => 7)).1,
    (cholesky_indefinite_example_cells (fun _ => 7)).2.1,
    (cholesky_degenerate_pivot Real.sqrt (fun x => 1 / x)
      (fun x hx => Real.sqrt_eq_zero_of_nonpos hx) 2 (fun _ => 7)
      (fun k => if k = 0 ∨ k = 3 then 1 else 2) 1).1 1 (by decide) hrad⟩

end TRICAL
